import Mathlib

/-!
Verification of the function/struct extraction engine of `eval_harness/parser.py`.

The Python code is shallowly embedded: text is `List Char`, a source file is a
list of lines, loops become fuel-based structural recursions (the fuel is always
initialised to a bound that provably exceeds the number of iterations, so the
fuel-exhaustion branches are unreachable on the initial calls), and the concrete
regular expressions of the source are expanded into the deterministic character
scans they denote on their (disjoint character class) patterns.  Word characters
and whitespace follow the ASCII meaning of the patterns involved.
-/

/-- Word character, the class matched by a regex word escape on ASCII text:
letters, digits and underscore. -/
def isWordChar (c : Char) : Bool := c.isAlphanum || c == '_'

/-- Whitespace in the sense of string strip and the whitespace regex class. -/
def isSpace (c : Char) : Bool :=
  c == ' ' || c == '\t' || c == '\n' || c == '\r' || c == '\x0b' || c == '\x0c'

/-- Strip of leading and trailing whitespace, the no-argument string strip. -/
def pyStrip (l : List Char) : List Char :=
  ((l.dropWhile isSpace).reverse.dropWhile isSpace).reverse

/-- Split a text on the newline character, keeping empty pieces: the single
separator string split used on whole file contents. -/
def splitNl : List Char → List (List Char)
  | [] => [[]]
  | c :: rest =>
    if c = '\n' then [] :: splitNl rest
    else
      match splitNl rest with
      | [] => [[c]]
      | f :: fs => (c :: f) :: fs

/-- Split a file's contents into lines the way line iteration does: each line
keeps its trailing newline, and no empty final line is produced when the file
ends with a newline. -/
def readLines : List Char → List (List Char)
  | [] => []
  | c :: rest =>
    if c = '\n' then ['\n'] :: readLines rest
    else
      match readLines rest with
      | [] => [[c]]
      | l :: ls => (c :: l) :: ls

/-- Record for one extracted function: name, 1-indexed inclusive line range,
and the verbatim text, mirroring the tuples built by `extract_functions`. -/
structure FunctionRecord where
  name : List Char
  start_line : Nat
  end_line : Nat
  text : List Char
deriving DecidableEq, Inhabited

/-- Count of opening braces minus count of closing braces, as an integer. -/
def braceDiff (l : List Char) : Int :=
  (l.count '\x7b' : Int) - (l.count '\x7d' : Int)

/-- Character scan of one line in `extract_functions`: threads the brace count
and the in-function flag, and reports whether the inner loop broke on the brace
that returned the count to zero.  Returns (count, flag, broke). -/
def scanLine : List Char → Int → Bool → Int × Bool × Bool
  | [], bc, inf => (bc, inf, false)
  | c :: rest, bc, inf =>
    if c = '\x7b' then scanLine rest (bc + 1) true
    else if c = '\x7d' then
      if inf = true ∧ bc - 1 = 0 then (bc - 1, inf, true)
      else scanLine rest (bc - 1) inf
    else scanLine rest bc inf

/-- Search for the function's closing line in `extract_functions`: walks lines
from absolute index `j`, returning the 1-indexed end line when the inner scan
breaks, and nothing when the outer loop stops without having set an end line
(count returned to zero only at an opening brace, or the lines ran out). -/
def findEnd : List (List Char) → Nat → Int → Bool → Option Nat
  | [], _, _, _ => none
  | l :: rest, j, bc, inf =>
    match scanLine l bc inf with
    | (_, _, true) => some (j + 1)
    | (bc1, inf1, false) =>
      if inf1 = true ∧ bc1 = 0 then none else findEnd rest (j + 1) bc1 inf1

/-- Skip test of the scanner: blank lines, comment starts and ends, and
preprocessor directives are not examined as function definition candidates. -/
def skipLine (l : List Char) : Bool :=
  l.isEmpty || "//".data.isPrefixOf l || "/*".data.isPrefixOf l ||
    "#".data.isPrefixOf l || "*/".data.isPrefixOf l

/-- Match of the function definition pattern against a stripped line: one word
run, a nonempty run of whitespace or stars, the function name word run,
optional whitespace, a parenthesised parameter list free of closing
parentheses, optional whitespace, then an opening brace.  The character classes
of the pattern are disjoint at every juncture, so the greedy regex of the
source matches exactly when this deterministic scan does, and the returned name
is the second captured group. -/
def funcMatch (l : List Char) : Option (List Char) :=
  let w1 := l.takeWhile isWordChar
  if w1.isEmpty then none
  else
    let r1 := l.dropWhile isWordChar
    let sep := r1.takeWhile (fun c => isSpace c || c == '*')
    if sep.isEmpty then none
    else
      let r2 := r1.dropWhile (fun c => isSpace c || c == '*')
      let nm := r2.takeWhile isWordChar
      if nm.isEmpty then none
      else
        match (r2.dropWhile isWordChar).dropWhile isSpace with
        | '(' :: r5 =>
          (match r5.dropWhile (fun c => !(c == ')')) with
           | ')' :: r6 =>
             (match r6.dropWhile isSpace with
              | '\x7b' :: _ => some nm
              | _ => none)
           | _ => none)
        | _ => none

/-- Main loop of `extract_functions` over the line index `i`; the fuel bounds
the number of loop iterations (each iteration advances `i` by at least one, so
`lines.length` iterations always suffice from index 0). -/
def extractGo (lines : List (List Char)) : Nat → Nat → List FunctionRecord
  | 0, _ => []
  | fuel + 1, i =>
    if i < lines.length then
      if skipLine (pyStrip (lines.getD i [])) then extractGo lines fuel (i + 1)
      else
        match funcMatch (pyStrip (lines.getD i [])) with
        | none => extractGo lines fuel (i + 1)
        | some nm =>
          match findEnd (lines.drop i) i 0 false with
          | some e =>
            if i < e then
              ⟨nm, i + 1, e, ((lines.drop i).take (e - i)).flatten⟩ :: extractGo lines fuel e
            else extractGo lines fuel (i + 1)
          | none => extractGo lines fuel (i + 1)
    else []

/-- Extraction of all function records from a file given as its list of lines
(each line carrying its newline, as produced by `readLines`). -/
def extract_functions (lines : List (List Char)) : List FunctionRecord :=
  extractGo lines lines.length 0

lemma braceDiff_nil : braceDiff [] = 0 := by simp [braceDiff]

lemma braceDiff_cons (c : Char) (l : List Char) :
    braceDiff (c :: l) =
      braceDiff l + (if c = '\x7b' then 1 else if c = '\x7d' then -1 else 0) := by
  by_cases h1 : c = '\x7b'
  · subst h1; simp [braceDiff, List.count_cons]; ring
  · by_cases h2 : c = '\x7d'
    · subst h2; simp [braceDiff, List.count_cons, h1]; ring
    · simp [braceDiff, List.count_cons, h1, h2, Ne.symm h1, Ne.symm h2]

lemma braceDiff_append (a b : List Char) :
    braceDiff (a ++ b) = braceDiff a + braceDiff b := by
  simp only [braceDiff, List.count_append]
  push_cast; ring

lemma scanLine_no_break (chars : List Char) :
    ∀ bc inf bc1 inf1, scanLine chars bc inf = (bc1, inf1, false) →
      bc1 = bc + braceDiff chars := by
  induction chars with
  | nil =>
    intro bc inf bc1 inf1 h
    simp [scanLine] at h
    rw [braceDiff_nil]; omega
  | cons c rest ih =>
    intro bc inf bc1 inf1 h
    simp only [scanLine] at h
    rw [braceDiff_cons]
    by_cases h1 : c = '\x7b'
    · rw [if_pos h1] at h
      have := ih (bc + 1) true bc1 inf1 h
      rw [if_pos h1]; omega
    · rw [if_neg h1] at h
      by_cases h2 : c = '\x7d'
      · rw [if_pos h2] at h
        by_cases h3 : inf = true ∧ bc - 1 = 0
        · rw [if_pos h3] at h; simp at h
        · rw [if_neg h3] at h
          have := ih (bc - 1) inf bc1 inf1 h
          rw [if_neg h1, if_pos h2]; omega
      · rw [if_neg h2] at h
        have := ih bc inf bc1 inf1 h
        rw [if_neg h1, if_neg h2]; omega

lemma scanLine_break (chars : List Char) :
    ∀ bc inf bc1 inf1, scanLine chars bc inf = (bc1, inf1, true) →
      ∃ p q, chars = p ++ '\x7d' :: q ∧ bc + braceDiff p - 1 = 0 := by
  induction chars with
  | nil => intro bc inf bc1 inf1 h; simp [scanLine] at h
  | cons c rest ih =>
    intro bc inf bc1 inf1 h
    simp only [scanLine] at h
    by_cases h1 : c = '\x7b'
    · rw [if_pos h1] at h
      obtain ⟨p, q, hpq, hd⟩ := ih (bc + 1) true bc1 inf1 h
      refine ⟨c :: p, q, by simp [hpq], ?_⟩
      rw [braceDiff_cons, if_pos h1]; omega
    · rw [if_neg h1] at h
      by_cases h2 : c = '\x7d'
      · rw [if_pos h2] at h
        by_cases h3 : inf = true ∧ bc - 1 = 0
        · rw [if_pos h3] at h
          refine ⟨[], rest, by simp [h2], ?_⟩
          rw [braceDiff_nil]; omega
        · rw [if_neg h3] at h
          obtain ⟨p, q, hpq, hd⟩ := ih (bc - 1) inf bc1 inf1 h
          refine ⟨c :: p, q, by simp [hpq], ?_⟩
          rw [braceDiff_cons, if_neg h1, if_pos h2]; omega
      · rw [if_neg h2] at h
        obtain ⟨p, q, hpq, hd⟩ := ih bc inf bc1 inf1 h
        refine ⟨c :: p, q, by simp [hpq], ?_⟩
        rw [braceDiff_cons, if_neg h1, if_neg h2]; omega

lemma findEnd_bound (ls : List (List Char)) :
    ∀ j bc inf e, findEnd ls j bc inf = some e → j < e ∧ e ≤ j + ls.length := by
  induction ls with
  | nil => intro j bc inf e h; simp [findEnd] at h
  | cons l rest ih =>
    intro j bc inf e h
    simp only [findEnd] at h
    rcases hs : scanLine l bc inf with ⟨bc1, inf1, brk⟩
    rw [hs] at h
    cases brk with
    | true =>
      simp only [] at h
      have he : j + 1 = e := Option.some.inj h
      simp only [List.length_cons]; omega
    | false =>
      simp only [] at h
      split_ifs at h with hc
      have := ih (j + 1) bc1 inf1 e h
      simp only [List.length_cons]; omega

lemma findEnd_decomp (ls : List (List Char)) :
    ∀ j bc inf e, findEnd ls j bc inf = some e →
      ∃ p q, (ls.take (e - j)).flatten = p ++ '\x7d' :: q ∧ bc + braceDiff p - 1 = 0 := by
  induction ls with
  | nil => intro j bc inf e h; simp [findEnd] at h
  | cons l rest ih =>
    intro j bc inf e h
    simp only [findEnd] at h
    rcases hs : scanLine l bc inf with ⟨bc1, inf1, brk⟩
    rw [hs] at h
    cases brk with
    | true =>
      simp only [] at h
      have he : j + 1 = e := Option.some.inj h
      obtain ⟨p, q, hpq, hd⟩ := scanLine_break l bc inf bc1 inf1 hs
      refine ⟨p, q, ?_, hd⟩
      have h1 : e - j = 1 := by omega
      simp [h1, hpq]
    | false =>
      simp only [] at h
      split_ifs at h with hc
      obtain ⟨p, q, hpq, hd⟩ := ih (j + 1) bc1 inf1 e h
      have hb := findEnd_bound rest (j + 1) bc1 inf1 e h
      have hbc1 : bc1 = bc + braceDiff l := scanLine_no_break l bc inf bc1 inf1 hs
      refine ⟨l ++ p, q, ?_, ?_⟩
      · have hej : e - j = (e - (j + 1)) + 1 := by omega
        rw [hej, List.take_succ_cons, List.flatten_cons, hpq, List.append_assoc]
      · rw [braceDiff_append]; omega

lemma extractGo_mem (lines : List (List Char)) :
    ∀ fuel i r, r ∈ extractGo lines fuel i →
      i + 1 ≤ r.start_line ∧ r.start_line ≤ r.end_line ∧ r.end_line ≤ lines.length ∧
      r.text = ((lines.drop (r.start_line - 1)).take (r.end_line + 1 - r.start_line)).flatten ∧
      ∃ p q, r.text = p ++ '\x7d' :: q ∧ braceDiff p = 1 := by
  intro fuel
  induction fuel with
  | zero => intro i r h; simp [extractGo] at h
  | succ f ih =>
    intro i r h
    rw [extractGo] at h
    by_cases hi : i < lines.length
    · rw [if_pos hi] at h
      by_cases hsk : skipLine (pyStrip (lines.getD i []))
      · rw [if_pos hsk] at h
        have := ih (i + 1) r h
        refine ⟨by omega, this.2⟩
      · rw [if_neg hsk] at h
        rcases hfm : funcMatch (pyStrip (lines.getD i [])) with _ | nm
        · rw [hfm] at h
          simp only [] at h
          have := ih (i + 1) r h
          refine ⟨by omega, this.2⟩
        · rw [hfm] at h
          simp only [] at h
          rcases hfe : findEnd (lines.drop i) i 0 false with _ | e
          · rw [hfe] at h
            simp only [] at h
            have := ih (i + 1) r h
            refine ⟨by omega, this.2⟩
          · rw [hfe] at h
            simp only [] at h
            by_cases he : i < e
            · rw [if_pos he] at h
              rcases List.mem_cons.mp h with hr | hr
              · subst hr
                have hb := findEnd_bound (lines.drop i) i 0 false e hfe
                rw [List.length_drop] at hb
                obtain ⟨p, q, hpq, hd⟩ := findEnd_decomp (lines.drop i) i 0 false e hfe
                refine ⟨le_refl _, by simp; omega, by simp; omega, ?_, ?_⟩
                · show ((lines.drop i).take (e - i)).flatten =
                    ((lines.drop (i + 1 - 1)).take (e + 1 - (i + 1))).flatten
                  have h1 : i + 1 - 1 = i := by omega
                  have h2 : e + 1 - (i + 1) = e - i := by omega
                  rw [h1, h2]
                · exact ⟨p, q, hpq, by omega⟩
              · have := ih e r hr
                refine ⟨by omega, this.2⟩
            · rw [if_neg he] at h
              have := ih (i + 1) r h
              refine ⟨by omega, this.2⟩
    · rw [if_neg hi] at h
      simp at h

lemma extractGo_out (lines : List (List Char)) (fuel i : Nat) (hi : lines.length ≤ i) :
    extractGo lines fuel i = [] := by
  cases fuel with
  | zero => rw [extractGo]
  | succ f => rw [extractGo, if_neg (by omega)]

lemma extractGo_chain (lines : List (List Char)) :
    ∀ fuel i, List.Chain' (fun a b : FunctionRecord => a.end_line < b.start_line)
      (extractGo lines fuel i) := by
  intro fuel
  induction fuel with
  | zero => intro i; simp [extractGo]
  | succ f ih =>
    intro i
    rw [extractGo]
    by_cases hi : i < lines.length
    · rw [if_pos hi]
      by_cases hsk : skipLine (pyStrip (lines.getD i []))
      · rw [if_pos hsk]; exact ih (i + 1)
      · rw [if_neg hsk]
        rcases hfm : funcMatch (pyStrip (lines.getD i [])) with _ | nm
        · simp only []; exact ih (i + 1)
        · simp only []
          rcases hfe : findEnd (lines.drop i) i 0 false with _ | e
          · simp only []; exact ih (i + 1)
          · simp only []
            by_cases he : i < e
            · rw [if_pos he]
              refine List.chain'_cons'.mpr ⟨?_, ih e⟩
              intro b hb
              have hmem : b ∈ extractGo lines f e := List.mem_of_mem_head? hb
              have := (extractGo_mem lines f e b hmem).1
              show e < b.start_line
              omega
            · rw [if_neg he]; exact ih (i + 1)
    · rw [if_neg hi]; simp

/-- C1: every FunctionRecord emitted by the function scanner has
`end_line >= start_line`, and its `text` is exactly the concatenation, in
order, of the source lines `start_line` through `end_line` (1-indexed,
inclusive), character for character. -/
theorem c1_function_record_text_slice (lines : List (List Char)) (r : FunctionRecord)
    (hr : r ∈ extract_functions lines) :
    r.start_line ≤ r.end_line ∧ r.end_line ≤ lines.length ∧
    r.text = ((lines.drop (r.start_line - 1)).take (r.end_line + 1 - r.start_line)).flatten := by
  have := extractGo_mem lines lines.length 0 r hr
  exact ⟨this.2.1, this.2.2.1, this.2.2.2.1⟩

/-- Concrete source file used to witness the scanner claims. -/
def c1Lines : List (List Char) := readLines "int foo() \x7b\n  return 0;\n\x7d\n".data

/-- Record of the single function extracted from `c1Lines`. -/
def c1Rec : FunctionRecord := (extract_functions c1Lines).headD default

theorem c1_witness :
    c1Rec ∈ extract_functions c1Lines ∧
    (c1Rec.start_line ≤ c1Rec.end_line ∧ c1Rec.end_line ≤ c1Lines.length ∧
     c1Rec.text =
       ((c1Lines.drop (c1Rec.start_line - 1)).take
         (c1Rec.end_line + 1 - c1Rec.start_line)).flatten) :=
  ⟨by decide, c1_function_record_text_slice c1Lines c1Rec (by decide)⟩

/-- C6 counterexample: the scanner emits a record whose text has two opening
braces but only one closing brace, because the characters of the end line
after the matching closing brace are part of the text but were never counted. -/
theorem c6_brace_balance_counterexample :
    (extract_functions ["int f() \x7b \x7d \x7b".data]).map
      (fun r => decide (r.text.count '\x7b' = r.text.count '\x7d')) = [false] := by
  decide

/-- C6 amended: every emitted FunctionRecord's text splits as `p ++ '\x7d' :: q`
where `p` together with that closing brace is exactly brace balanced (the brace
that returned the scanner's count to zero), so the aggregate brace-count
difference of the whole text equals that of `q`, the residue of the end line
after the matching close; the original zero-difference claim holds exactly when
that residue is itself balanced. -/
theorem c6_brace_balance_amended (lines : List (List Char)) (r : FunctionRecord)
    (hr : r ∈ extract_functions lines) :
    ∃ p q, r.text = p ++ '\x7d' :: q ∧ p.count '\x7b' = p.count '\x7d' + 1 ∧
      braceDiff r.text = braceDiff q := by
  obtain ⟨p, q, hpq, hd⟩ := (extractGo_mem lines lines.length 0 r hr).2.2.2.2
  refine ⟨p, q, hpq, ?_, ?_⟩
  · have : braceDiff p = 1 := hd
    simp only [braceDiff] at this
    omega
  · rw [hpq, ← List.singleton_append, ← List.append_assoc, braceDiff_append,
      braceDiff_append]
    have h1 : braceDiff ['\x7d'] = -1 := by decide
    omega

/-- Record of the single function extracted from the C6 counterexample file. -/
def c6Rec : FunctionRecord :=
  (extract_functions ["int f() \x7b \x7d \x7b".data]).headD default

theorem c6_witness :
    c6Rec ∈ extract_functions ["int f() \x7b \x7d \x7b".data] ∧
    (∃ p q, c6Rec.text = p ++ '\x7d' :: q ∧ p.count '\x7b' = p.count '\x7d' + 1 ∧
      braceDiff c6Rec.text = braceDiff q) :=
  ⟨by decide, c6_brace_balance_amended ["int f() \x7b \x7d \x7b".data] c6Rec (by decide)⟩

/-- C7: the scanner emits records in strictly forward, non-overlapping order
(each record's start line is strictly greater than the previous record's end
line), and a candidate line whose matching closing brace is never found yields
no record, the scan simply resuming at the next line. -/
theorem c7_forward_nonoverlapping (lines : List (List Char)) :
    List.Chain' (fun a b : FunctionRecord => a.end_line < b.start_line)
      (extract_functions lines) ∧
    ∀ i fuel, findEnd (lines.drop i) i 0 false = none →
      extractGo lines (fuel + 1) i = extractGo lines fuel (i + 1) := by
  constructor
  · exact extractGo_chain lines lines.length 0
  · intro i fuel hfe
    rw [extractGo]
    by_cases hi : i < lines.length
    · rw [if_pos hi]
      by_cases hsk : skipLine (pyStrip (lines.getD i []))
      · rw [if_pos hsk]
      · rw [if_neg hsk]
        rcases hfm : funcMatch (pyStrip (lines.getD i [])) with _ | nm
        · rfl
        · simp only []
          rw [hfe]
    · rw [if_neg hi]
      exact (extractGo_out lines fuel (i + 1) (by omega)).symm

theorem c7_witness :
    extractGo (readLines "int f() \x7b\n".data) 1 0 =
      extractGo (readLines "int f() \x7b\n".data) 0 1 :=
  (c7_forward_nonoverlapping (readLines "int f() \x7b\n".data)).2 0 0 (by decide)

/-- Match of the struct definition pattern against a stripped line: the literal
word `struct`, at least one whitespace character, the struct name word run,
optional whitespace, then an opening brace; the captured name is returned.
The classes at each juncture are disjoint, so this deterministic scan agrees
with the greedy anchored regex of the source. -/
def structRegex (l : List Char) : Option (List Char) :=
  if "struct".data.isPrefixOf l then
    let t1 := l.drop 6
    if (t1.takeWhile isSpace).isEmpty then none
    else
      let t2 := t1.dropWhile isSpace
      let nm := t2.takeWhile isWordChar
      if nm.isEmpty then none
      else
        match (t2.dropWhile isWordChar).dropWhile isSpace with
        | '\x7b' :: _ => some nm
        | _ => none
  else none

/-- Guarded struct-line test of `extract_struct_definitions`: the stripped line
must start with `struct ` and contain an opening brace before the anchored
pattern is tried. -/
def structLineMatch (l : List Char) : Option (List Char) :=
  if "struct ".data.isPrefixOf l && l.contains '\x7b' then structRegex l else none


/-- Body collection loop of `extract_struct_definitions`: starting at line
index `j` with the running brace count `bc`, the loop appends lines while the
count stays positive.  This function returns the appended lines; the loop's
final index is `j` plus their number, since the index advances once per
appended line.  Fuel bounds the iterations (each consumes one line). -/
def collectLines (lines : List (List Char)) : Nat → Nat → Int → List (List Char)
  | 0, _, _ => []
  | fuel + 1, j, bc =>
    if j < lines.length ∧ 0 < bc then
      lines.getD j [] ::
        collectLines lines fuel (j + 1) (bc + braceDiff (lines.getD j []))
    else []

/-- Insertion-ordered dictionary update: an existing key keeps its position and
gets the new value, a new key is appended at the end. -/
def upsert (m : List (List Char × List Char)) (k v : List Char) :
    List (List Char × List Char) :=
  if m.any (fun e => e.1 == k) then
    m.map (fun e => if e.1 == k then (e.1, v) else e)
  else m ++ [(k, v)]

/-- Main loop of `extract_struct_definitions` over the line index; on a struct
header line the body lines are collected, the joined text is stored under the
struct's name, and the scan resumes past the body.  Fuel bounds the iterations
(the index advances by at least one each time). -/
def esdGo (lines : List (List Char)) :
    Nat → Nat → List (List Char × List Char) → List (List Char × List Char)
  | 0, _, acc => acc
  | fuel + 1, i, acc =>
    if i < lines.length then
      match structLineMatch (pyStrip (lines.getD i [])) with
      | some nm =>
        esdGo lines fuel
          (i + 1 + (collectLines lines lines.length (i + 1)
            (braceDiff (pyStrip (lines.getD i [])))).length)
          (upsert acc nm (List.intercalate ['\n']
            (lines.getD i [] :: collectLines lines lines.length (i + 1)
              (braceDiff (pyStrip (lines.getD i []))))))
      | none => esdGo lines fuel (i + 1) acc
    else acc

/-- Extraction of the struct table from whole source text: a mapping from
struct name to its full (newline-joined) definition text, in first-definition
order. -/
def extract_struct_definitions (source : List Char) :
    List (List Char × List Char) :=
  esdGo (splitNl source) (splitNl source).length 0 []

/-- Match, at the head of `t`, of the word-boundary struct reference pattern:
a boundary, the literal `struct`, at least one whitespace, the struct name,
then a word boundary.  `prevW` tells whether the character before `t` is a
word character (false at the start of the text).  The trailing boundary is
evaluated through the word-ness of the name's last character, which for the
scanner-produced names (word runs) means the next character must not be a word
character. -/
def structRefMatchAt (name : List Char) (prevW : Bool) (t : List Char) : Bool :=
  !prevW && "struct".data.isPrefixOf t &&
    (let t1 := t.drop 6
     !(t1.takeWhile isSpace).isEmpty &&
       (let t2 := t1.dropWhile isSpace
        name.isPrefixOf t2 &&
          (match name with
           | [] => true
           | n0 :: _ =>
             match t2.drop name.length with
             | [] => isWordChar (name.getLastD n0)
             | c :: _ => isWordChar (name.getLastD n0) != isWordChar c)))

/-- Scan of a text for a word-boundary struct reference, threading whether the
previous character was a word character. -/
def structRefGo (name : List Char) : Bool → List Char → Bool
  | _, [] => false
  | prevW, c :: rest =>
    structRefMatchAt name prevW (c :: rest) || structRefGo name (isWordChar c) rest

/-- Search for a word-boundary occurrence of `struct <name>` anywhere in the
given code text. -/
def structRefOccurs (name code : List Char) : Bool := structRefGo name false code

/-- Definitions appended by one pass of the resolver's inner loop over the
whole struct table: the definition of each entry not yet seen whose name is
referenced by `cur`, in table order.  Together with `passSeen` (the other
projection of the same loop state) this is the resolver's inner loop. -/
def passDefs (structs : List (List Char × List Char)) (cur : List Char)
    (seen : List (List Char)) : List (List Char) :=
  match structs with
  | [] => []
  | e :: rest =>
    if e.1 ∈ seen then passDefs rest cur seen
    else if structRefOccurs e.1 cur then e.2 :: passDefs rest cur (e.1 :: seen)
    else passDefs rest cur seen

/-- Seen set after one pass of the resolver's inner loop over the whole struct
table: the incoming seen set extended with every newly referenced name. -/
def passSeen (structs : List (List Char × List Char)) (cur : List Char)
    (seen : List (List Char)) : List (List Char) :=
  match structs with
  | [] => seen
  | e :: rest =>
    if e.1 ∈ seen then passSeen rest cur seen
    else if structRefOccurs e.1 cur then passSeen rest cur (e.1 :: seen)
    else passSeen rest cur seen

/-- Worklist loop of `find_referenced_structs`: pop the front text, run one
table pass against it, append the discovered definitions both to the result
and to the back of the worklist.  Fuel bounds the iterations: every iteration
pops one item and enqueues one item per newly seen struct name, so iterations
cannot exceed the initial queue length plus the number of table entries. -/
def frsGo (structs : List (List Char × List Char)) :
    Nat → List (List Char) → List (List Char) → List (List Char)
  | 0, _, _ => []
  | _ + 1, [], _ => []
  | fuel + 1, cur :: queue, seen =>
    passDefs structs cur seen ++
      frsGo structs fuel (queue ++ passDefs structs cur seen)
        (passSeen structs cur seen)

/-- Transitive-closure resolution of struct references: breadth-first from the
seed text, visiting each struct name at most once and returning definitions in
first-discovery order. -/
def find_referenced_structs (code : List Char)
    (structs : List (List Char × List Char)) : List (List Char) :=
  frsGo structs (structs.length + 1) [code] []

/-- First value stored in the table under a given struct name (empty when the
name is absent). -/
def lookupStruct (structs : List (List Char × List Char)) (n : List Char) :
    List Char :=
  ((structs.find? (fun e => e.1 == n)).map (fun e => e.2)).getD []

lemma lookupStruct_cons_self (e : List Char × List Char)
    (rest : List (List Char × List Char)) : lookupStruct (e :: rest) e.1 = e.2 := by
  unfold lookupStruct
  rw [List.find?_cons_of_pos rest (by simp)]
  rfl

lemma lookupStruct_cons_ne (e : List Char × List Char)
    (rest : List (List Char × List Char)) (n : List Char) (h : n ≠ e.1) :
    lookupStruct (e :: rest) n = lookupStruct rest n := by
  unfold lookupStruct
  rw [List.find?_cons_of_neg rest (by simp [Ne.symm h])]

/-- Number of table entries whose key is not yet in the seen set; the
resolver's worklist measure decreases against it. -/
def unseenCount (structs : List (List Char × List Char))
    (seen : List (List Char)) : Nat :=
  structs.countP (fun e => decide (e.1 ∉ seen))

lemma unseenCount_nil (seen : List (List Char)) : unseenCount [] seen = 0 := rfl

lemma unseenCount_cons (e : List Char × List Char)
    (structs : List (List Char × List Char)) (seen : List (List Char)) :
    unseenCount (e :: structs) seen =
      unseenCount structs seen + (if e.1 ∈ seen then 0 else 1) := by
  simp only [unseenCount, List.countP_cons]
  by_cases h : e.1 ∈ seen <;> simp [h]

lemma unseenCount_mono (structs : List (List Char × List Char))
    (s1 s2 : List (List Char)) (hs : ∀ m, m ∈ s1 → m ∈ s2) :
    unseenCount structs s2 ≤ unseenCount structs s1 := by
  induction structs with
  | nil => simp [unseenCount_nil]
  | cons e rest ih =>
    rw [unseenCount_cons, unseenCount_cons]
    by_cases h1 : e.1 ∈ s1
    · have := hs e.1 h1
      simp [h1, this]; omega
    · split_ifs <;> omega

lemma passDefs_names (cur : List Char) :
    ∀ (structs : List (List Char × List Char)) (seen : List (List Char)),
      ∃ new : List (List Char), new.Nodup ∧
        (∀ n ∈ new, n ∈ structs.map Prod.fst ∧ n ∉ seen ∧
          structRefOccurs n cur = true) ∧
        passDefs structs cur seen = new.map (lookupStruct structs) ∧
        (∀ m, m ∈ passSeen structs cur seen ↔ m ∈ new ∨ m ∈ seen) := by
  intro structs
  induction structs with
  | nil =>
    intro seen
    exact ⟨[], by simp, by simp, by simp [passDefs], by simp [passSeen]⟩
  | cons e rest ih =>
    intro seen
    by_cases h1 : e.1 ∈ seen
    · obtain ⟨new, hnd, hprops, hmap, hiff⟩ := ih seen
      refine ⟨new, hnd, ?_, ?_, ?_⟩
      · intro n hn
        obtain ⟨hk, hs, ho⟩ := hprops n hn
        exact ⟨by simp [hk], hs, ho⟩
      · rw [passDefs, if_pos h1, hmap]
        apply List.map_congr_left
        intro n hn
        exact (lookupStruct_cons_ne e rest n
          (fun hc => (hprops n hn).2.1 (hc ▸ h1))).symm
      · intro m
        rw [passSeen, if_pos h1]
        exact hiff m
    · by_cases h2 : structRefOccurs e.1 cur = true
      · obtain ⟨new, hnd, hprops, hmap, hiff⟩ := ih (e.1 :: seen)
        have hknotin : e.1 ∉ new := fun hc => (hprops e.1 hc).2.1 (by simp)
        refine ⟨e.1 :: new, List.nodup_cons.mpr ⟨hknotin, hnd⟩, ?_, ?_, ?_⟩
        · intro n hn
          rcases List.mem_cons.mp hn with hn | hn
          · exact ⟨by simp [hn], hn ▸ h1, hn ▸ h2⟩
          · obtain ⟨hk, hs, ho⟩ := hprops n hn
            exact ⟨by simp [hk], fun hc => hs (by simp [hc]), ho⟩
        · rw [passDefs, if_neg h1, if_pos h2, List.map_cons,
            lookupStruct_cons_self, hmap]
          congr 1
          apply List.map_congr_left
          intro n hn
          exact (lookupStruct_cons_ne e rest n
            (fun hc => (hprops n hn).2.1 (by simp [hc]))).symm
        · intro m
          rw [passSeen, if_neg h1, if_pos h2, hiff m]
          simp [List.mem_cons]
          tauto
      · obtain ⟨new, hnd, hprops, hmap, hiff⟩ := ih seen
        refine ⟨new, hnd, ?_, ?_, ?_⟩
        · intro n hn
          obtain ⟨hk, hs, ho⟩ := hprops n hn
          exact ⟨by simp [hk], hs, ho⟩
        · rw [passDefs, if_neg h1, if_neg h2, hmap]
          apply List.map_congr_left
          intro n hn
          refine (lookupStruct_cons_ne e rest n (fun hc => ?_)).symm
          rw [← hc] at h2
          exact h2 ((hprops n hn).2.2)
        · intro m
          rw [passSeen, if_neg h1, if_neg h2]
          exact hiff m

lemma unseenCount_congr (structs : List (List Char × List Char))
    (s1 s2 : List (List Char)) (hs : ∀ m, m ∈ s1 ↔ m ∈ s2) :
    unseenCount structs s1 = unseenCount structs s2 := by
  have h1 := unseenCount_mono structs s1 s2 (fun m hm => (hs m).mp hm)
  have h2 := unseenCount_mono structs s2 s1 (fun m hm => (hs m).mpr hm)
  omega

lemma unseenCount_insert (structs : List (List Char × List Char))
    (n : List Char) (seen : List (List Char)) (hk : n ∈ structs.map Prod.fst)
    (hn : n ∉ seen) :
    unseenCount structs (n :: seen) + 1 ≤ unseenCount structs seen := by
  induction structs with
  | nil => simp at hk
  | cons e rest ih =>
    rw [unseenCount_cons, unseenCount_cons]
    by_cases he : e.1 = n
    · have h1 : e.1 ∈ n :: seen := by simp [he]
      have h2 : e.1 ∉ seen := he ▸ hn
      have h3 := unseenCount_mono rest seen (n :: seen) (fun m hm => by simp [hm])
      rw [if_pos h1, if_neg h2]; omega
    · rcases List.mem_map.mp hk with ⟨a, ha, hae⟩
      rcases List.mem_cons.mp ha with ha1 | ha1
      · exact absurd (ha1 ▸ hae) he
      · have hk2 : n ∈ rest.map Prod.fst := List.mem_map.mpr ⟨a, ha1, hae⟩
        have := ih hk2
        have h1 : (e.1 ∈ n :: seen) ↔ e.1 ∈ seen := by simp [he]
        by_cases hx : e.1 ∈ seen
        · rw [if_pos (h1.mpr hx), if_pos hx]; omega
        · rw [if_neg (fun hc => hx (h1.mp hc)), if_neg hx]; omega

lemma unseenCount_newnames (structs : List (List Char × List Char)) :
    ∀ (new seen seen2 : List (List Char)), new.Nodup →
      (∀ n ∈ new, n ∈ structs.map Prod.fst ∧ n ∉ seen) →
      (∀ m, m ∈ seen2 ↔ m ∈ new ∨ m ∈ seen) →
      unseenCount structs seen2 + new.length ≤ unseenCount structs seen := by
  intro new
  induction new with
  | nil =>
    intro seen seen2 hnd hprops hiff
    have := unseenCount_congr structs seen2 seen (fun m => by simpa using hiff m)
    simp [this]
  | cons n ns ih =>
    intro seen seen2 hnd hprops hiff
    have hnk := (hprops n (by simp)).1
    have hns := (hprops n (by simp)).2
    have step := unseenCount_insert structs n seen hnk hns
    have hrec := ih (n :: seen) seen2 (List.nodup_cons.mp hnd).2
      (fun m hm => ⟨(hprops m (by simp [hm])).1, fun hc => by
        rcases List.mem_cons.mp hc with hc1 | hc1
        · exact (List.nodup_cons.mp hnd).1 (hc1 ▸ hm)
        · exact (hprops m (by simp [hm])).2 hc1⟩)
      (fun m => by
        rw [hiff m]
        simp [List.mem_cons]
        tauto)
    simp only [List.length_cons]
    omega

lemma pass_measure (structs : List (List Char × List Char)) (cur : List Char)
    (seen : List (List Char)) :
    unseenCount structs (passSeen structs cur seen) +
      (passDefs structs cur seen).length ≤ unseenCount structs seen := by
  obtain ⟨new, hnd, hprops, hmap, hiff⟩ := passDefs_names cur structs seen
  have hlen : (passDefs structs cur seen).length = new.length := by
    rw [hmap, List.length_map]
  rw [hlen]
  exact unseenCount_newnames structs new seen (passSeen structs cur seen) hnd
    (fun n hn => ⟨(hprops n hn).1, (hprops n hn).2.1⟩) hiff

lemma passSeen_extends (structs : List (List Char × List Char)) (cur : List Char)
    (seen : List (List Char)) (m : List Char) (hm : m ∈ seen) :
    m ∈ passSeen structs cur seen := by
  obtain ⟨new, _, _, _, hiff⟩ := passDefs_names cur structs seen
  exact (hiff m).mpr (Or.inr hm)

lemma frsGo_fuel_stable (structs : List (List Char × List Char)) :
    ∀ f1 f2 (q seen : List (List Char)),
      q.length + unseenCount structs seen ≤ f1 →
      q.length + unseenCount structs seen ≤ f2 →
      frsGo structs f1 q seen = frsGo structs f2 q seen := by
  intro f1
  induction f1 with
  | zero =>
    intro f2 q seen h1 h2
    have hq : q = [] := by
      cases q with
      | nil => rfl
      | cons a l => simp [List.length_cons] at h1
    subst hq
    cases f2 with
    | zero => rfl
    | succ f => rw [frsGo, frsGo]
  | succ f ih =>
    intro f2 q seen h1 h2
    cases q with
    | nil =>
      cases f2 with
      | zero => rw [frsGo, frsGo]
      | succ g => rw [frsGo, frsGo]
    | cons cur queue =>
      have hf2 : ∃ g, f2 = g + 1 := by
        cases f2 with
        | zero => simp [List.length_cons] at h2
        | succ g => exact ⟨g, rfl⟩
      obtain ⟨g, rfl⟩ := hf2
      rw [frsGo, frsGo]
      congr 1
      have hm := pass_measure structs cur seen
      apply ih
      · simp only [List.length_append, List.length_cons] at *
        omega
      · simp only [List.length_append, List.length_cons] at *
        omega

lemma frsGo_names (structs : List (List Char × List Char)) :
    ∀ fuel (q seen : List (List Char)),
      ∃ names : List (List Char), names.Nodup ∧
        (∀ n ∈ names, n ∈ structs.map Prod.fst ∧ n ∉ seen) ∧
        frsGo structs fuel q seen = names.map (lookupStruct structs) := by
  intro fuel
  induction fuel with
  | zero => intro q seen; exact ⟨[], by simp, by simp, by rw [frsGo]; simp⟩
  | succ f ih =>
    intro q seen
    cases q with
    | nil => exact ⟨[], by simp, by simp, by rw [frsGo]; simp⟩
    | cons cur queue =>
      obtain ⟨new, hnd, hprops, hmap, hiff⟩ := passDefs_names cur structs seen
      obtain ⟨names2, hnd2, hprops2, hmap2⟩ :=
        ih (queue ++ passDefs structs cur seen) (passSeen structs cur seen)
      refine ⟨new ++ names2, ?_, ?_, ?_⟩
      · rw [List.nodup_append]
        refine ⟨hnd, hnd2, ?_⟩
        intro n hn hn2
        have h1 : n ∈ passSeen structs cur seen := (hiff n).mpr (Or.inl hn)
        exact (hprops2 n hn2).2 h1
      · intro n hn
        rcases List.mem_append.mp hn with hn | hn
        · exact ⟨(hprops n hn).1, (hprops n hn).2.1⟩
        · refine ⟨(hprops2 n hn).1, fun hc => ?_⟩
          exact (hprops2 n hn).2 (passSeen_extends structs cur seen n hc)
      · rw [frsGo, hmap2, hmap, List.map_append]

lemma frs_first_pass (structs : List (List Char × List Char)) (cur : List Char) :
    ∀ (seen : List (List Char)) (S : List Char), S ∈ structs.map Prod.fst →
      structRefOccurs S cur = true → S ∉ seen →
      lookupStruct structs S ∈ passDefs structs cur seen := by
  induction structs with
  | nil => intro seen S hk; simp at hk
  | cons e rest ih =>
    intro seen S hk ho hs
    by_cases he : e.1 = S
    · rw [passDefs, if_neg (he ▸ hs), if_pos (he ▸ ho)]
      rw [← he, lookupStruct_cons_self]
      simp
    · have hk2 : S ∈ rest.map Prod.fst := by
        rcases List.mem_map.mp hk with ⟨a, ha, hae⟩
        rcases List.mem_cons.mp ha with ha1 | ha1
        · exact absurd (ha1 ▸ hae) he
        · exact List.mem_map.mpr ⟨a, ha1, hae⟩
      rw [lookupStruct_cons_ne e rest S (fun hc => he hc.symm)]
      rw [passDefs]
      split_ifs with h1 h2
      · exact ih seen S hk2 ho hs
      · refine List.mem_cons.mpr (Or.inr ?_)
        exact ih (e.1 :: seen) S hk2 ho
          (fun hc => by rcases List.mem_cons.mp hc with hc1 | hc1
                        exacts [he hc1.symm, hs hc1])
      · exact ih seen S hk2 ho hs

/-- C3: the struct-closure resolver is a pure, terminating function of the
seed text and the struct table.  Termination is expressed through the fuel:
any fuel of at least one more than the table size computes the same value as
the canonical run, because every worklist iteration either retires a queue
entry or visits struct names never visited again.  The result deduplicates by
struct name: it is the image, under table lookup, of a duplicate-free list of
table keys, and in particular never exceeds the table in length. -/
theorem c3_struct_closure_stable (code : List Char)
    (structs : List (List Char × List Char)) :
    (∀ fuel, structs.length + 1 ≤ fuel →
      frsGo structs fuel [code] [] = find_referenced_structs code structs) ∧
    ∃ names : List (List Char), names.Nodup ∧
      (∀ n ∈ names, n ∈ structs.map Prod.fst) ∧
      find_referenced_structs code structs = names.map (lookupStruct structs) ∧
      (find_referenced_structs code structs).length ≤ structs.length := by
  have hu : unseenCount structs [] ≤ structs.length := List.countP_le_length _
  constructor
  · intro fuel hf
    apply frsGo_fuel_stable
    · simp only [List.length_cons, List.length_nil]
      omega
    · simp only [List.length_cons, List.length_nil]
      omega
  · obtain ⟨names, hnd, hprops, hmap⟩ :=
      frsGo_names structs (structs.length + 1) [code] []
    refine ⟨names, hnd, fun n hn => (hprops n hn).1, hmap, ?_⟩
    rw [show find_referenced_structs code structs =
      frsGo structs (structs.length + 1) [code] [] from rfl, hmap,
      List.length_map]
    have h1 : names.toFinset.card = names.length :=
      List.toFinset_card_of_nodup hnd
    have h2 : names.toFinset ⊆ (structs.map Prod.fst).toFinset := by
      intro x hx
      exact List.mem_toFinset.mpr ((hprops x (List.mem_toFinset.mp hx)).1)
    have h3 := Finset.card_le_card h2
    have h4 : (structs.map Prod.fst).toFinset.card ≤
        (structs.map Prod.fst).length := List.toFinset_card_le _
    rw [List.length_map] at h4
    omega

/-- Concrete struct table used to witness the resolver claims. -/
def c3Structs : List (List Char × List Char) :=
  [("S".data, "struct S \x7b struct T t; \x7d;".data),
   ("T".data, "struct T \x7b int y; \x7d;".data)]

theorem c3_witness :
    c3Structs.length + 1 ≤ 5 ∧
    frsGo c3Structs 5 ["struct S x;".data] [] =
      find_referenced_structs "struct S x;".data c3Structs :=
  ⟨by decide, (c3_struct_closure_stable "struct S x;".data c3Structs).1 5 (by decide)⟩

/-- Match, at the head of `t`, of the call-site pattern: a word boundary, the
function name, optional whitespace, then an opening parenthesis.  `prevW`
tells whether the character before `t` is a word character. -/
def depMatchAt (name : List Char) (prevW : Bool) (t : List Char) : Bool :=
  match name with
  | [] => false
  | n0 :: _ =>
    (prevW != isWordChar n0) && name.isPrefixOf t &&
      (match (t.drop name.length).dropWhile isSpace with
       | '(' :: _ => true
       | _ => false)

/-- Scan of a text for a call-site occurrence of the given function name. -/
def depOccursGo (name : List Char) : Bool → List Char → Bool
  | _, [] => false
  | prevW, c :: rest =>
    depMatchAt name prevW (c :: rest) || depOccursGo name (isWordChar c) rest

/-- Search for a call-site occurrence of `name` anywhere in the code. -/
def depOccurs (name code : List Char) : Bool := depOccursGo name false code

/-- Extraction of function dependencies: the known function names, in their
given order, that occur in the code at a call site. -/
def extract_dependencies (code : List Char) (all_functions : List (List Char)) :
    List (List Char) :=
  all_functions.filter (fun n => depOccurs n code)

/-- Lookup in the name-to-code dictionary built from the function list by
insertion; a duplicated name keeps the code of its last record, so the lookup
searches the reversed list. -/
def funcLookup (functions : List FunctionRecord) (n : List Char) :
    Option (List Char) :=
  (functions.reverse.find? (fun f => f.name == n)).map (fun f => f.text)

/-- Full code of the dependency functions, in dependency-name order, skipping
names absent from the dictionary. -/
def get_dependency_code (dep_names : List (List Char))
    (all_functions : List FunctionRecord) : List (List Char) :=
  dep_names.filterMap (fun d => funcLookup all_functions d)

/-- Decimal digits of `n` left-padded with zeros to width three, the
zero-padded number formatting used in identifiers. -/
def pad3 (n : Nat) : List Char :=
  List.replicate (3 - (Nat.toDigits 10 n).length) '0' ++ Nat.toDigits 10 n

/-- Hint stripping of `anonymize_function_name`: one evaluative prefix
(`FP_` or `FN_`) is removed if present, then exactly one of the hint suffixes
(`_bad`, `_ok`, `_good`, `_latent`), first match in that order. -/
def stripHints (name : List Char) : List Char :=
  let n1 := if "FP_".data.isPrefixOf name then name.drop 3
            else if "FN_".data.isPrefixOf name then name.drop 3
            else name
  if "_bad".data.isSuffixOf n1 then n1.take (n1.length - 4)
  else if "_ok".data.isSuffixOf n1 then n1.take (n1.length - 3)
  else if "_good".data.isSuffixOf n1 then n1.take (n1.length - 5)
  else if "_latent".data.isSuffixOf n1 then n1.take (n1.length - 7)
  else n1

/-- Anonymization of a function name: strip the hints, and when nothing is
left substitute the positional generic name built from the 1-based sequence
index. -/
def anonymize_function_name (name : List Char) (index : Nat) : List Char :=
  if (stripHints name).isEmpty then "test_function_".data ++ pad3 index
  else stripHints name

/-- Match, at the head of `t`, of the whole-word pattern for `name`: a word
boundary, the name, then a word boundary.  Boundaries are evaluated through
the word-ness of the name's first and last characters (a regex word boundary
separates a word character from a non-word character or a text edge); the
names this is used with are nonempty word runs, for which the empty-pattern
case cannot arise. -/
def wbMatchAt (name : List Char) (prevW : Bool) (t : List Char) : Bool :=
  match name with
  | [] => false
  | n0 :: _ =>
    (prevW != isWordChar n0) && name.isPrefixOf t &&
      (match t.drop name.length with
       | [] => isWordChar (name.getLastD n0)
       | c :: _ => isWordChar (name.getLastD n0) != isWordChar c)

/-- Left-to-right, non-overlapping whole-word substitution: at each position
either the whole-word pattern matches and the replacement is emitted with the
scan resuming past the matched name, or one character is copied.  Fuel bounds
the steps (each consumes at least one character of `t`). -/
def wbSubGo (name rep : List Char) : Nat → Bool → List Char → List Char
  | 0, _, t => t
  | _ + 1, _, [] => []
  | fuel + 1, prevW, c :: rest =>
    if wbMatchAt name prevW (c :: rest) then
      rep ++ wbSubGo name rep fuel (isWordChar (name.getLastD c))
        ((c :: rest).drop name.length)
    else c :: wbSubGo name rep fuel (isWordChar c) rest

/-- Whole-word substitution over a text, starting at a text edge. -/
def wbSub (name rep t : List Char) : List Char :=
  wbSubGo name rep t.length false t

/-- Replacement of every whole-word occurrence of the original function name
by the anonymized name inside the function's code. -/
def anonymize_function_code (code original_name anonymized_name : List Char) :
    List Char :=
  wbSub original_name anonymized_name code

/-- Scan of a text for a whole-word occurrence of `name`. -/
def wbOccursGo (name : List Char) : Bool → List Char → Bool
  | _, [] => false
  | prevW, c :: rest =>
    wbMatchAt name prevW (c :: rest) || wbOccursGo name (isWordChar c) rest

/-- Search for a whole-word occurrence of `name` anywhere in the text. -/
def wbOccurs (name t : List Char) : Bool := wbOccursGo name false t

/-- Decomposition of a text into maximal word-character runs and the separator
characters between them, applying `f` to every run and re-concatenating.  Fuel
bounds the steps (each consumes at least one character). -/
def tokensMapGo (f : List Char → List Char) : Nat → List Char → List Char
  | 0, t => t
  | _ + 1, [] => []
  | fuel + 1, c :: rest =>
    if isWordChar c then
      f ((c :: rest).takeWhile isWordChar) ++
        tokensMapGo f fuel ((c :: rest).dropWhile isWordChar)
    else c :: tokensMapGo f fuel rest

/-- Map over the maximal word-character runs of a text. -/
def tokensMap (f : List Char → List Char) (t : List Char) : List Char :=
  tokensMapGo f t.length t

/-- Defect record of the ground-truth loader, mirroring the Bug dataclass:
kind, line offset relative to the function start, absolute line (a sentinel
until the owning function is known), severity, and trace text. -/
structure Bug where
  bug_type : List Char
  line_offset : Int
  absolute_line : Int
  severity : List Char
  trace : List Char
deriving DecidableEq, Inhabited

/-- Split on the two-character separator of the annotation format (a comma
followed by a space), non-overlapping and left to right. -/
def splitCS : List Char → List (List Char)
  | [] => [[]]
  | ',' :: ' ' :: rest => [] :: splitCS rest
  | c :: rest =>
    match splitCS rest with
    | [] => [[c]]
    | f :: fs => (c :: f) :: fs

/-- Value of a run of decimal digits possibly separated by single interior
underscores; fails on a leading, trailing or doubled underscore. -/
def digitsValGo : List Char → Nat → Option Nat
  | [], acc => some acc
  | '_' :: c :: rest, acc =>
    if c.isDigit then digitsValGo rest (acc * 10 + (c.toNat - 48)) else none
  | ['_'], _ => none
  | c :: rest, acc =>
    if c.isDigit then digitsValGo rest (acc * 10 + (c.toNat - 48)) else none

/-- Nonempty digit run with optional interior underscores. -/
def digitsVal : List Char → Option Nat
  | [] => none
  | c :: rest => if c.isDigit then digitsValGo rest (c.toNat - 48) else none

/-- Integer literal parse: strip whitespace, one optional sign, then a digit
run; anything else fails, mirroring the integer constructor applied to the
third annotation field. -/
def pyInt (s : List Char) : Option Int :=
  match pyStrip s with
  | '+' :: rest => (digitsVal rest).map (fun n => (n : Int))
  | '-' :: rest => (digitsVal rest).map (fun n => -(n : Int))
  | rest => (digitsVal rest).map (fun n => (n : Int))

/-- First index at which `needle` starts inside `hay`. -/
def findSubGo (needle : List Char) : List Char → Nat → Option Nat
  | [], k => if needle.isEmpty then some k else none
  | c :: rest, k =>
    if needle.isPrefixOf (c :: rest) then some k else findSubGo needle rest (k + 1)

/-- Substring search returning the first start index. -/
def strFind (hay needle : List Char) : Option Nat := findSubGo needle hay 0

/-- First index at or after `start` holding character `c`. -/
def findCharFrom (hay : List Char) (c : Char) (start : Nat) : Option Nat :=
  ((hay.drop start).findIdx? (fun x => x == c)).map (fun k => k + start)

/-- Last index holding character `c`. -/
def rfindChar (hay : List Char) (c : Char) : Option Nat :=
  (hay.reverse.findIdx? (fun x => x == c)).map (fun k => hay.length - 1 - k)

/-- Trace extraction of the loader: the text strictly between the first
opening bracket at or after the first occurrence of the severity token and the
last closing bracket of the line; empty when either bracket is absent.  The
severity token is one of the line's fields, so the substring search cannot
miss and the fallback start index 0 is never used. -/
def traceOf (line sev : List Char) : List Char :=
  match findCharFrom line '[' ((strFind line sev).getD 0), rfindChar line ']' with
  | some ts, some te => (line.drop (ts + 1)).take (te - (ts + 1))
  | _, _ => []

/-- Append of a defect under a function name: an existing name keeps its
position and its list grows at the end; a new name is appended to the map. -/
def appendBug (m : List (List Char × List Bug)) (k : List Char) (b : Bug) :
    List (List Char × List Bug) :=
  if m.any (fun e => e.1 == k) then
    m.map (fun e => if e.1 == k then (e.1, e.2 ++ [b]) else e)
  else m ++ [(k, [b])]

/-- Processing of one annotation line: blank lines and lines with fewer than
six comma-space fields are skipped; otherwise the third field must parse as an
integer (a failure is raised to the caller and aborts the run, mirroring the
uncaught conversion error), and a defect record is appended under the second
field with a sentinel absolute line. -/
def parseIssueLine (line : List Char) (m : List (List Char × List Bug)) :
    Except (List Char) (List (List Char × List Bug)) :=
  let l := pyStrip line
  if l.isEmpty then Except.ok m
  else
    let parts := splitCS l
    if parts.length < 6 then Except.ok m
    else
      match pyInt (parts.getD 2 []) with
      | none => Except.error (parts.getD 2 [])
      | some off =>
        Except.ok (appendBug m (parts.getD 1 [])
          { bug_type := parts.getD 3 [], line_offset := off, absolute_line := -1,
            severity := parts.getD 5 [], trace := traceOf l (parts.getD 5 []) })

/-- Ground-truth loader: fold the line processor over the file's lines,
aborting at the first raised error. -/
def parse_issues_exp (content : List Char) :
    Except (List Char) (List (List Char × List Bug)) :=
  (splitNl content).foldlM (fun m line => parseIssueLine line m) []

/-- Defect list recorded for a function name, empty when absent. -/
def lookupBugs (m : List (List Char × List Bug)) (n : List Char) : List Bug :=
  ((m.find? (fun e => e.1 == n)).map (fun e => e.2)).getD []

/-- Loop of `extract_includes`: collect the stripped form of every line whose
stripped form starts with the inclusion-directive marker. -/
def incGo : List (List Char) → List (List Char)
  | [] => []
  | l :: rest =>
    if "#include".data.isPrefixOf (pyStrip l) then pyStrip l :: incGo rest
    else incGo rest

/-- Extraction of the inclusion directives of a source text, in file order. -/
def extract_includes (source : List Char) : List (List Char) :=
  incGo (splitNl source)

/-- Category test: whether some defect has the given kind. -/
def hasType (bugs : List Bug) (t : List Char) : Bool :=
  bugs.any (fun b => b.bug_type == t)

/-- Single-label classification of a function from its defect kinds, first
match in a fixed preference order. -/
def categorize_function (bugs : List Bug) : List Char :=
  if bugs.isEmpty then "safe".data
  else if hasType bugs "NULLPTR_DEREFERENCE".data then "nullptr_dereference".data
  else if hasType bugs "MEMORY_LEAK".data || hasType bugs "MEMORY_LEAK_C".data then
    "memory_leak".data
  else if hasType bugs "USE_AFTER_FREE".data then "use_after_free".data
  else if hasType bugs "UNINITIALIZED_VALUE".data ||
    hasType bugs "PULSE_UNINITIALIZED_VALUE".data then "uninitialized_value".data
  else if hasType bugs "RESOURCE_LEAK".data ||
    hasType bugs "PULSE_RESOURCE_LEAK".data then "resource_leak".data
  else "other".data

/-- Order-preserving removal of duplicates, keeping first occurrences, with
the already-seen elements threaded as a set. -/
def dedupGo (seen : List (List Char)) : List (List Char) → List (List Char)
  | [] => []
  | x :: xs => if x ∈ seen then dedupGo seen xs else x :: dedupGo (x :: seen) xs

/-- Ground-truth block of an evaluation record. -/
structure GroundTruth where
  has_bug : Bool
  bugs : List Bug
deriving DecidableEq, Inhabited

/-- Classification metadata of an evaluation record. -/
structure Metadata where
  requires_interprocedural : Bool
  category : List Char
  start_line : Nat
  end_line : Nat
deriving DecidableEq, Inhabited

/-- Evaluation record, mirroring the FunctionInfo dataclass. -/
structure FunctionInfo where
  id : List Char
  source_file : List Char
  original_function_name : List Char
  anonymized_function_name : List Char
  function_code : List Char
  includes : List (List Char)
  dependencies : List (List Char)
  ground_truth : GroundTruth
  metadata : Metadata
deriving DecidableEq, Inhabited

/-- Read-only inputs shared by every per-function assembly within one file:
the parsed ground truth, the includes, the struct table, the function records
and their names, the output identifier prefix (the test file's base name with
its extension removed, handled by the excluded path code), the relative source
path, and the two behaviour flags. -/
structure GenEnv where
  bugsMap : List (List Char × List Bug)
  includes : List (List Char)
  structs : List (List Char × List Char)
  functions : List FunctionRecord
  allNames : List (List Char)
  baseId : List Char
  sourceFile : List Char
  anonymizeFlag : Bool
  includeSafe : Bool

/-- Loop-body test of the record assembler: functions with an evaluative
prefix are skipped entirely, and safe functions are skipped when excluded. -/
def skipFn (env : GenEnv) (f : FunctionRecord) : Bool :=
  "FP_".data.isPrefixOf f.name || "FN_".data.isPrefixOf f.name ||
    (!env.includeSafe && (lookupBugs env.bugsMap f.name).isEmpty)

/-- Assembly of one evaluation record from one function record and its 1-based
sequence index: defects are looked up by original name and given absolute
lines, the name and code are anonymized when requested, dependencies and the
struct closure are computed from the original code, and the context is the
includes followed by the deduplicated struct definitions. -/
def assembleRecord (env : GenEnv) (f : FunctionRecord) (idx : Nat) :
    FunctionInfo :=
  { id := env.baseId ++ '_' :: pad3 idx
    source_file := env.sourceFile
    original_function_name := f.name
    anonymized_function_name :=
      if env.anonymizeFlag then anonymize_function_name f.name idx else f.name
    function_code :=
      if env.anonymizeFlag then
        anonymize_function_code f.text f.name (anonymize_function_name f.name idx)
      else f.text
    includes := env.includes ++ dedupGo []
      (find_referenced_structs f.text env.structs ++
        (get_dependency_code
          ((extract_dependencies f.text env.allNames).filter (fun d => !(d == f.name)))
          env.functions).flatMap (fun d => find_referenced_structs d env.structs))
    dependencies := get_dependency_code
      ((extract_dependencies f.text env.allNames).filter (fun d => !(d == f.name)))
      env.functions
    ground_truth :=
      { has_bug := !((lookupBugs env.bugsMap f.name).map (fun b =>
          { b with absolute_line := (f.start_line : Int) + b.line_offset })).isEmpty
        bugs := (lookupBugs env.bugsMap f.name).map (fun b =>
          { b with absolute_line := (f.start_line : Int) + b.line_offset }) }
    metadata :=
      { requires_interprocedural :=
          !((extract_dependencies f.text env.allNames).filter
            (fun d => !(d == f.name))).isEmpty
        category := categorize_function ((lookupBugs env.bugsMap f.name).map (fun b =>
          { b with absolute_line := (f.start_line : Int) + b.line_offset }))
        start_line := f.start_line
        end_line := f.end_line } }

/-- Emission loop of the record assembler: walk the extracted functions in
scan order, skipping the excluded ones, assembling the rest, and advancing the
1-based sequence index only on emission. -/
def genGo (env : GenEnv) : List FunctionRecord → Nat → List FunctionInfo
  | [], _ => []
  | f :: rest, idx =>
    if skipFn env f then genGo env rest idx
    else assembleRecord env f idx :: genGo env rest (idx + 1)

/-- Shared environment of one generation run over one source file. -/
def mkEnv (bugsMap : List (List Char × List Bug)) (content : List Char)
    (baseId sourceFile : List Char) (anonF includeSafe : Bool) : GenEnv :=
  { bugsMap := bugsMap
    includes := extract_includes content
    structs := extract_struct_definitions content
    functions := extract_functions (readLines content)
    allNames := (extract_functions (readLines content)).map (fun f => f.name)
    baseId := baseId
    sourceFile := sourceFile
    anonymizeFlag := anonF
    includeSafe := includeSafe }

/-- Evaluation records generated from one source file's contents and the
already-parsed ground truth, starting the sequence index at one. -/
def generate_records (bugsMap : List (List Char × List Bug)) (content : List Char)
    (baseId sourceFile : List Char) (anonF includeSafe : Bool) :
    List FunctionInfo :=
  genGo (mkEnv bugsMap content baseId sourceFile anonF includeSafe)
    (extract_functions (readLines content)) 1

/-- End-to-end generation: parse the annotation file, then assemble the
records; a loader error propagates. -/
def generate_jsonl (issues content : List Char) (baseId sourceFile : List Char)
    (anonF includeSafe : Bool) : Except (List Char) (List FunctionInfo) :=
  (parse_issues_exp issues).map (fun m =>
    generate_records m content baseId sourceFile anonF includeSafe)

lemma incGo_eq (ls : List (List Char)) :
    incGo ls = ((ls.map pyStrip).filter (fun l => "#include".data.isPrefixOf l)) := by
  induction ls with
  | nil => rfl
  | cons l rest ih =>
    rw [incGo, List.map_cons, List.filter_cons]
    by_cases h : "#include".data.isPrefixOf (pyStrip l) = true
    · rw [if_pos h, ih]
      simp [h]
    · rw [if_neg h, ih]
      simp [h]

/-- C10 counterexample: on a file whose one include line carries leading
whitespace, the collected entry is the stripped line, not the verbatim source
line. -/
theorem c10_includes_counterexample :
    extract_includes "  #include <a.h>".data = ["#include <a.h>".data] ∧
    splitNl "  #include <a.h>".data = ["  #include <a.h>".data] ∧
    "#include <a.h>".data ≠ "  #include <a.h>".data :=
  ⟨by decide, by decide, by decide⟩

/-- C10 amended: the includes list contains, in file order, exactly the
stripped forms of those source lines whose stripped form starts with the
inclusion-directive marker; a line with surrounding whitespace is therefore
collected stripped, not verbatim. -/
theorem c10_includes_amended (source : List Char) :
    extract_includes source =
      ((splitNl source).map pyStrip).filter
        (fun l => "#include".data.isPrefixOf l) :=
  incGo_eq (splitNl source)

/-- C5 counterexample: a line with six comma-space fields whose third field is
not an integer literal is not skipped: the loader raises, aborting the whole
run. -/
theorem c5_malformed_line_error :
    parse_issues_exp "a, b, xyz, T, B, E".data = Except.error "xyz".data := by
  rfl

/-- C5 amended: every line with fewer than six comma-space-separated fields
(blank lines included) is skipped silently, without an error and without
aborting the remaining lines; but a line with at least six fields whose third
field is not a valid integer literal raises an error that aborts processing,
so not every malformed line is recovered from. -/
theorem c5_short_line_skipped (line : List Char) (m : List (List Char × List Bug))
    (h : (splitCS (pyStrip line)).length < 6) :
    parseIssueLine line m = Except.ok m := by
  simp only [parseIssueLine]
  by_cases he : (pyStrip line).isEmpty
  · rw [if_pos he]
  · rw [if_neg he, if_pos h]

theorem c5_witness :
    (splitCS (pyStrip "a, b".data)).length < 6 ∧
    parseIssueLine "a, b".data [] = Except.ok [] :=
  ⟨by decide, c5_short_line_skipped "a, b".data [] (by decide)⟩

lemma genGo_mem (env : GenEnv) :
    ∀ (fs : List FunctionRecord) (idx : Nat) (rec : FunctionInfo),
      rec ∈ genGo env fs idx →
      ∃ f j, rec = assembleRecord env f j ∧ f ∈ fs := by
  intro fs
  induction fs with
  | nil => intro idx rec h; simp [genGo] at h
  | cons f rest ih =>
    intro idx rec h
    rw [genGo] at h
    by_cases hs : skipFn env f
    · rw [if_pos hs] at h
      obtain ⟨g, j, hg, hmem⟩ := ih idx rec h
      exact ⟨g, j, hg, by simp [hmem]⟩
    · rw [if_neg hs] at h
      rcases List.mem_cons.mp h with h1 | h1
      · exact ⟨f, idx, h1, by simp⟩
      · obtain ⟨g, j, hg, hmem⟩ := ih (idx + 1) rec h1
        exact ⟨g, j, hg, by simp [hmem]⟩

/-- C4: in every emitted evaluation record, every attached defect's absolute
line equals the owning function's start line plus the defect's line offset. -/
theorem c4_absolute_line (bugsMap : List (List Char × List Bug))
    (content baseId sourceFile : List Char) (anonF includeSafe : Bool)
    (rec : FunctionInfo)
    (hr : rec ∈ generate_records bugsMap content baseId sourceFile anonF includeSafe)
    (b : Bug) (hb : b ∈ rec.ground_truth.bugs) :
    b.absolute_line = (rec.metadata.start_line : Int) + b.line_offset := by
  obtain ⟨f, j, hrec, hmem⟩ := genGo_mem _ _ _ rec hr
  subst hrec
  simp only [assembleRecord] at hb ⊢
  rcases List.mem_map.mp hb with ⟨b0, hb0, hbeq⟩
  subst hbeq
  rfl

/-- Ground truth used to witness the correlation claim: one defect at line
offset 2 for a function starting at line 10. -/
def c4Map : List (List Char × List Bug) :=
  [("f".data, [⟨"NULLPTR_DEREFERENCE".data, 2, -1, "ERROR".data, []⟩])]

/-- Source whose single function starts at line 10. -/
def c4Content : List Char :=
  "//1\n//2\n//3\n//4\n//5\n//6\n//7\n//8\n//9\nint f() \x7b\n  int x;\n\x7d\n".data

/-- First emitted record of the witness run. -/
def c4Rec : FunctionInfo :=
  (generate_records c4Map c4Content "t".data "s".data true true).headD default

/-- First defect of the witness record. -/
def c4Bug : Bug := c4Rec.ground_truth.bugs.headD default

theorem c4_witness :
    c4Rec ∈ generate_records c4Map c4Content "t".data "s".data true true ∧
    c4Bug ∈ c4Rec.ground_truth.bugs ∧ c4Rec.metadata.start_line = 10 ∧
    c4Bug.line_offset = 2 ∧
    c4Bug.absolute_line = (c4Rec.metadata.start_line : Int) + c4Bug.line_offset :=
  ⟨by decide, by decide, by decide, by decide,
   c4_absolute_line c4Map c4Content "t".data "s".data true true c4Rec (by decide)
     c4Bug (by decide)⟩

lemma genGo_get (env : GenEnv) :
    ∀ (fs : List FunctionRecord) (idx k : Nat) (rec : FunctionInfo),
      (genGo env fs idx)[k]? = some rec →
      rec.id = env.baseId ++ '_' :: pad3 (idx + k) ∧
      rec.anonymized_function_name =
        (if env.anonymizeFlag then
          anonymize_function_name rec.original_function_name (idx + k)
         else rec.original_function_name) := by
  intro fs
  induction fs with
  | nil => intro idx k rec h; simp [genGo] at h
  | cons f rest ih =>
    intro idx k rec h
    rw [genGo] at h
    by_cases hs : skipFn env f
    · rw [if_pos hs] at h
      exact ih idx k rec h
    · rw [if_neg hs] at h
      cases k with
      | zero =>
        rw [List.getElem?_cons_zero] at h
        have hr : assembleRecord env f idx = rec := Option.some.inj h
        subst hr
        exact ⟨rfl, rfl⟩
      | succ k0 =>
        rw [List.getElem?_cons_succ] at h
        have := ih (idx + 1) k0 rec h
        have harr : idx + 1 + k0 = idx + (k0 + 1) := by omega
        rw [harr] at this
        exact this

/-- C9 counterexample: with a skipped FP_-prefixed function first in the file,
the second extracted function is emitted with sequence index 1 (id suffix 001),
not with its extraction position 2. -/
theorem c9_index_counterexample :
    (extract_functions (readLines "int FP_a() \x7b \x7d\nint b() \x7b \x7d\n".data)).map
      (fun f => f.name) = ["FP_a".data, "b".data] ∧
    (generate_records [] "int FP_a() \x7b \x7d\nint b() \x7b \x7d\n".data "t".data
      "s".data true true).map (fun r => (r.original_function_name, r.id)) =
      [("b".data, "t_001".data)] :=
  ⟨by decide, by decide⟩

/-- C9 amended: the 1-based sequence index counts emitted records, not
extracted functions: the k-th emitted record (k starting at 1) carries index k
in its id suffix (zero-padded to three digits), and that same index is the one
passed to the anonymizer, hence the one used for the generic fallback name
when hint stripping empties a name.  Extracted functions that are skipped
(FP_/FN_ prefix, or safe functions when excluded) consume no index. -/
theorem c9_index_amended (bugsMap : List (List Char × List Bug))
    (content baseId sourceFile : List Char) (anonF includeSafe : Bool)
    (k : Nat)
    (h : k < (generate_records bugsMap content baseId sourceFile anonF includeSafe).length) :
    ((generate_records bugsMap content baseId sourceFile anonF includeSafe).get
      ⟨k, h⟩).id = baseId ++ '_' :: pad3 (k + 1) ∧
    ((generate_records bugsMap content baseId sourceFile anonF includeSafe).get
      ⟨k, h⟩).anonymized_function_name =
      (if anonF then
        anonymize_function_name
          (((generate_records bugsMap content baseId sourceFile anonF
            includeSafe).get ⟨k, h⟩).original_function_name) (k + 1)
       else ((generate_records bugsMap content baseId sourceFile anonF
         includeSafe).get ⟨k, h⟩).original_function_name) := by
  have hsome : (generate_records bugsMap content baseId sourceFile anonF
      includeSafe)[k]? = some ((generate_records bugsMap content baseId
      sourceFile anonF includeSafe).get ⟨k, h⟩) := by
    rw [List.get_eq_getElem]
    exact List.getElem?_eq_getElem h
  have := genGo_get (mkEnv bugsMap content baseId sourceFile anonF includeSafe)
    (extract_functions (readLines content)) 1 k _ hsome
  have harr : 1 + k = k + 1 := by omega
  rw [harr] at this
  exact this

theorem c9_witness :
    0 < (generate_records [] "int _bad() \x7b \x7d\n".data "t".data "s".data
      true true).length ∧
    ((generate_records [] "int _bad() \x7b \x7d\n".data "t".data "s".data true
      true).get ⟨0, by decide⟩).id = "t".data ++ '_' :: pad3 (0 + 1) ∧
    ((generate_records [] "int _bad() \x7b \x7d\n".data "t".data "s".data true
      true).get ⟨0, by decide⟩).anonymized_function_name =
      (if true then
        anonymize_function_name
          (((generate_records [] "int _bad() \x7b \x7d\n".data "t".data "s".data
            true true).get ⟨0, by decide⟩).original_function_name) (0 + 1)
       else ((generate_records [] "int _bad() \x7b \x7d\n".data "t".data "s".data
         true true).get ⟨0, by decide⟩).original_function_name) :=
  ⟨by decide,
   (c9_index_amended [] "int _bad() \x7b \x7d\n".data "t".data "s".data true true
     0 (by decide)).1,
   (c9_index_amended [] "int _bad() \x7b \x7d\n".data "t".data "s".data true true
     0 (by decide)).2⟩

lemma funcLookup_isSome (functions : List FunctionRecord) (n : List Char)
    (h : n ∈ functions.map (fun f => f.name)) :
    ∃ t, funcLookup functions n = some t := by
  rcases List.mem_map.mp h with ⟨f, hf, hname⟩
  have hrev : f ∈ functions.reverse := List.mem_reverse.mpr hf
  have : ∃ g, functions.reverse.find? (fun g => g.name == n) = some g := by
    have hex : ∃ g ∈ functions.reverse, (fun g : FunctionRecord => g.name == n) g
        = true := ⟨f, hrev, by simp [hname]⟩
    rcases List.find?_isSome.mpr hex with h2
    rcases ho : functions.reverse.find? (fun g => g.name == n) with _ | g
    · rw [ho] at h2; simp at h2
    · exact ⟨g, ho⟩
  rcases this with ⟨g, hg⟩
  exact ⟨g.text, by rw [funcLookup, hg]; rfl⟩

lemma dedupGo_mem :
    ∀ (l seen : List (List Char)) (x : List Char), x ∈ l →
      x ∈ dedupGo seen l ∨ x ∈ seen := by
  intro l
  induction l with
  | nil => intro seen x hx; simp at hx
  | cons y ys ih =>
    intro seen x hx
    rw [dedupGo]
    rcases List.mem_cons.mp hx with h1 | h1
    · subst h1
      by_cases hy : x ∈ seen
      · rw [if_pos hy]; exact Or.inr hy
      · rw [if_neg hy]; exact Or.inl (by simp)
    · by_cases hy : y ∈ seen
      · rw [if_pos hy]; exact ih seen x h1
      · rw [if_neg hy]
        rcases ih (y :: seen) x h1 with h2 | h2
        · exact Or.inl (by simp [h2])
        · rcases List.mem_cons.mp h2 with h3 | h3
          · exact Or.inl (by simp [h3])
          · exact Or.inr h3

lemma frs_contains (structs : List (List Char × List Char)) (cur S : List Char)
    (hk : S ∈ structs.map Prod.fst) (ho : structRefOccurs S cur = true) :
    lookupStruct structs S ∈ find_referenced_structs cur structs := by
  unfold find_referenced_structs
  rw [frsGo]
  exact List.mem_append_left _ (frs_first_pass structs cur [] S hk ho (by simp))

/-- C2: for every emitted record there is the extracted function it was
assembled from, and for every function name B in that function's direct
dependency set (a known name other than its own occurring in its text at a
call site) and every struct S of the table: if the text the assembler
associates with B contains a word-boundary `struct S` reference, then S's full
definition is in the record's assembled context sequence. -/
theorem c2_closure_completeness (bugsMap : List (List Char × List Bug))
    (content baseId sourceFile : List Char) (anonF includeSafe : Bool)
    (rec : FunctionInfo)
    (hr : rec ∈ generate_records bugsMap content baseId sourceFile anonF includeSafe) :
    ∃ f, f ∈ extract_functions (readLines content) ∧
      rec.original_function_name = f.name ∧
      ∀ B S, B ∈ (extract_dependencies f.text
          ((extract_functions (readLines content)).map (fun g => g.name))).filter
          (fun d => !(d == f.name)) →
        S ∈ (extract_struct_definitions content).map Prod.fst →
        structRefOccurs S
          ((funcLookup (extract_functions (readLines content)) B).getD []) = true →
        lookupStruct (extract_struct_definitions content) S ∈ rec.includes := by
  obtain ⟨f, j, hrec, hmem⟩ := genGo_mem _ _ _ rec hr
  subst hrec
  refine ⟨f, hmem, rfl, ?_⟩
  intro B S hB hS href
  have hB1 := List.mem_of_mem_filter hB
  rw [extract_dependencies] at hB1
  have hBnames : B ∈ (extract_functions (readLines content)).map (fun g => g.name) :=
    List.mem_of_mem_filter hB1
  obtain ⟨t, ht⟩ := funcLookup_isSome (extract_functions (readLines content)) B hBnames
  have htd : (funcLookup (extract_functions (readLines content)) B).getD [] = t := by
    rw [ht]; rfl
  rw [htd] at href
  have htdep : t ∈ get_dependency_code
      ((extract_dependencies f.text
        ((extract_functions (readLines content)).map (fun g => g.name))).filter
        (fun d => !(d == f.name)))
      (extract_functions (readLines content)) :=
    List.mem_filterMap.mpr ⟨B, hB, ht⟩
  have hlk : lookupStruct (extract_struct_definitions content) S ∈
      find_referenced_structs t (extract_struct_definitions content) :=
    frs_contains (extract_struct_definitions content) t S hS href
  have hjoin : lookupStruct (extract_struct_definitions content) S ∈
      find_referenced_structs f.text (extract_struct_definitions content) ++
        (get_dependency_code
          ((extract_dependencies f.text
            ((extract_functions (readLines content)).map (fun g => g.name))).filter
            (fun d => !(d == f.name)))
          (extract_functions (readLines content))).flatMap
          (fun d => find_referenced_structs d (extract_struct_definitions content)) := by
    refine List.mem_append_right _ ?_
    exact List.mem_flatMap.mpr ⟨t, htdep, hlk⟩
  rcases dedupGo_mem _ [] _ hjoin with h2 | h2
  · exact List.mem_append_right _ h2
  · simp at h2

/-- Source used to witness closure completeness: function A calls helper B,
and B's text references struct S. -/
def c2Content : List Char :=
  "struct S \x7b int x; \x7d;\nint helperB(struct S *s) \x7b return s->x; \x7d\nint funcA(int y) \x7b return helperB(0); \x7d\n".data

/-- Record assembled for function A in the witness run. -/
def c2Rec : FunctionInfo :=
  (generate_records [] c2Content "t".data "s".data true true).getD 1 default

theorem c2_witness :
    c2Rec ∈ generate_records [] c2Content "t".data "s".data true true ∧
    (∃ f, f ∈ extract_functions (readLines c2Content) ∧
      c2Rec.original_function_name = f.name ∧
      ∀ B S, B ∈ (extract_dependencies f.text
          ((extract_functions (readLines c2Content)).map (fun g => g.name))).filter
          (fun d => !(d == f.name)) →
        S ∈ (extract_struct_definitions c2Content).map Prod.fst →
        structRefOccurs S
          ((funcLookup (extract_functions (readLines c2Content)) B).getD []) = true →
        lookupStruct (extract_struct_definitions c2Content) S ∈ c2Rec.includes) :=
  ⟨by decide,
   c2_closure_completeness [] c2Content "t".data "s".data true true c2Rec (by decide)⟩

lemma isPrefixOf_drop (p : List Char) :
    ∀ t, p.isPrefixOf t = true → p ++ t.drop p.length = t := by
  induction p with
  | nil => intro t h; simp
  | cons a p ih =>
    intro t h
    cases t with
    | nil => simp [List.isPrefixOf] at h
    | cons b t =>
      simp only [List.isPrefixOf, Bool.and_eq_true, beq_iff_eq] at h
      obtain ⟨h1, h2⟩ := h
      subst h1
      simp only [List.length_cons, List.drop_succ_cons, List.cons_append,
        List.cons.injEq, true_and]
      exact ih t h2

lemma isPrefixOf_append_self : ∀ (a b : List Char), a.isPrefixOf (a ++ b) = true := by
  intro a b
  induction a with
  | nil => simp [List.isPrefixOf]
  | cons x xs ih => simp [List.isPrefixOf, ih]

lemma word_prefix_take (name : List Char) (hw : ∀ c ∈ name, isWordChar c = true) :
    ∀ t, name.isPrefixOf t = true →
      name.isPrefixOf (t.takeWhile isWordChar) = true := by
  induction name with
  | nil => intro t h; simp [List.isPrefixOf]
  | cons n0 ns ih =>
    intro t h
    cases t with
    | nil => simp [List.isPrefixOf] at h
    | cons b t =>
      simp only [List.isPrefixOf, Bool.and_eq_true, beq_iff_eq] at h
      obtain ⟨h1, h2⟩ := h
      subst h1
      rw [List.takeWhile_cons_of_pos (hw n0 (by simp))]
      simp only [List.isPrefixOf, Bool.and_eq_true, beq_iff_eq]
      constructor
      · simp
      · exact ih (fun c hc => hw c (by simp [hc])) t h2

lemma getLastD_mem : ∀ (ns : List Char) (n0 x : Char),
    (n0 :: ns).getLastD x ∈ n0 :: ns := by
  intro ns
  induction ns with
  | nil => intro n0 x; simp
  | cons m ms ih =>
    intro n0 x
    rw [List.getLastD_cons]
    exact List.mem_cons_of_mem n0 (ih m n0)

lemma dropWhile_head_false (p : Char → Bool) :
    ∀ (l : List Char) c rest, l.dropWhile p = c :: rest → p c = false := by
  intro l
  induction l with
  | nil => intro c rest h; simp [List.dropWhile] at h
  | cons a l ih =>
    intro c rest h
    by_cases pa : p a = true
    · rw [List.dropWhile_cons_of_pos pa] at h
      exact ih c rest h
    · rw [List.dropWhile_cons_of_neg pa] at h
      have : a = c := (List.cons.injEq a l c rest ▸ h).1
      subst this
      simpa using pa

lemma dropWhile_length_le (p : Char → Bool) :
    ∀ l : List Char, (l.dropWhile p).length ≤ l.length := by
  intro l
  induction l with
  | nil => simp
  | cons a l ih =>
    by_cases pa : p a = true
    · rw [List.dropWhile_cons_of_pos pa]
      simp only [List.length_cons]
      omega
    · rw [List.dropWhile_cons_of_neg pa]

lemma wbSubGo_fuel (name rep : List Char) :
    ∀ f1 f2 pw (t : List Char), t.length ≤ f1 → t.length ≤ f2 →
      wbSubGo name rep f1 pw t = wbSubGo name rep f2 pw t := by
  intro f1
  induction f1 with
  | zero =>
    intro f2 pw t h1 h2
    have ht : t = [] := List.length_eq_zero.mp (by omega)
    subst ht
    cases f2 with
    | zero => rfl
    | succ g => rfl
  | succ f ih =>
    intro f2 pw t h1 h2
    cases t with
    | nil =>
      cases f2 with
      | zero => rfl
      | succ g => rfl
    | cons c rest =>
      cases f2 with
      | zero => simp [List.length_cons] at h2
      | succ g =>
        rw [wbSubGo, wbSubGo]
        by_cases hm : wbMatchAt name pw (c :: rest) = true
        · rw [if_pos hm, if_pos hm]
          have hname : ∃ n0 ns, name = n0 :: ns := by
            cases name with
            | nil => simp [wbMatchAt] at hm
            | cons n0 ns => exact ⟨n0, ns, rfl⟩
          obtain ⟨n0, ns, hn⟩ := hname
          have hlen : ((c :: rest).drop name.length).length ≤ f ∧
              ((c :: rest).drop name.length).length ≤ g := by
            rw [List.length_drop]
            simp only [List.length_cons] at h1 h2 ⊢
            rw [hn]
            simp only [List.length_cons]
            omega
          rw [ih g _ _ hlen.1 hlen.2]
        · rw [if_neg hm, if_neg hm]
          have : rest.length ≤ f ∧ rest.length ≤ g := by
            simp only [List.length_cons] at h1 h2
            omega
          rw [ih g _ _ this.1 this.2]

lemma tokensMapGo_fuel (f : List Char → List Char) :
    ∀ f1 f2 (t : List Char), t.length ≤ f1 → t.length ≤ f2 →
      tokensMapGo f f1 t = tokensMapGo f f2 t := by
  intro f1
  induction f1 with
  | zero =>
    intro f2 t h1 h2
    have ht : t = [] := List.length_eq_zero.mp (by omega)
    subst ht
    cases f2 with
    | zero => rfl
    | succ g => rfl
  | succ fl ih =>
    intro f2 t h1 h2
    cases t with
    | nil =>
      cases f2 with
      | zero => rfl
      | succ g => rfl
    | cons c rest =>
      cases f2 with
      | zero => simp [List.length_cons] at h2
      | succ g =>
        rw [tokensMapGo, tokensMapGo]
        by_cases hc : isWordChar c = true
        · rw [if_pos hc, if_pos hc]
          have hd : ((c :: rest).dropWhile isWordChar).length ≤ fl ∧
              ((c :: rest).dropWhile isWordChar).length ≤ g := by
            rw [List.dropWhile_cons_of_pos hc]
            have := dropWhile_length_le isWordChar rest
            simp only [List.length_cons] at h1 h2
            omega
          rw [ih g _ hd.1 hd.2]
        · rw [if_neg hc, if_neg hc]
          have : rest.length ≤ fl ∧ rest.length ≤ g := by
            simp only [List.length_cons] at h1 h2
            omega
          rw [ih g _ this.1 this.2]

lemma wbMatchAt_nonword_head (name : List Char)
    (hne : name ≠ []) (hw : ∀ c ∈ name, isWordChar c = true)
    (pw : Bool) (c : Char) (rest : List Char) (hc : isWordChar c = false) :
    wbMatchAt name pw (c :: rest) = false := by
  cases name with
  | nil => exact absurd rfl hne
  | cons a ns =>
    have ha : isWordChar a = true := hw a (by simp)
    have hne2 : ¬(a = c) := fun h => by rw [h] at ha; rw [ha] at hc; simp at hc
    simp only [wbMatchAt, List.isPrefixOf, Bool.and_eq_true, beq_iff_eq]
    simp [hne2]

lemma wbSubGo_flag (name rep : List Char) (hne : name ≠ [])
    (hw : ∀ c ∈ name, isWordChar c = true) :
    ∀ f pw1 pw2 (t : List Char),
      (∀ c rest, t = c :: rest → isWordChar c = false) →
      wbSubGo name rep f pw1 t = wbSubGo name rep f pw2 t := by
  intro f pw1 pw2 t hh
  cases f with
  | zero => rfl
  | succ g =>
    cases t with
    | nil => rfl
    | cons c rest =>
      have hc : isWordChar c = false := hh c rest rfl
      rw [wbSubGo, wbSubGo,
        if_neg (by rw [wbMatchAt_nonword_head name hne hw pw1 c rest hc]; simp),
        if_neg (by rw [wbMatchAt_nonword_head name hne hw pw2 c rest hc]; simp)]

lemma wbSubGo_word_copy (name rep : List Char) (hne : name ≠ [])
    (hw : ∀ c ∈ name, isWordChar c = true) :
    ∀ (w d : List Char), (∀ c ∈ w, isWordChar c = true) →
      wbSubGo name rep (w.length + d.length) true (w ++ d) =
        w ++ wbSubGo name rep d.length true d := by
  intro w
  induction w with
  | nil => intro d hws; simp
  | cons c w2 ih =>
    intro d hws
    have hgoalfuel : (c :: w2).length + d.length = (w2.length + d.length) + 1 := by
      simp only [List.length_cons]; omega
    rw [hgoalfuel]
    have hmf : wbMatchAt name true (c :: (w2 ++ d)) = false := by
      cases name with
      | nil => exact absurd rfl hne
      | cons a ns =>
        have ha : isWordChar a = true := hw a (by simp)
        simp only [wbMatchAt, ha]
        simp
    rw [List.cons_append, wbSubGo, if_neg (by rw [hmf]; simp)]
    rw [hws c (by simp)]
    rw [ih d (fun x hx => hws x (by simp [hx]))]
    simp

lemma wbSubGo_self (name : List Char) :
    ∀ f pw (t : List Char), wbSubGo name name f pw t = t := by
  intro f
  induction f with
  | zero => intro pw t; rfl
  | succ g ih =>
    intro pw t
    cases t with
    | nil => rfl
    | cons c rest =>
      rw [wbSubGo]
      by_cases hm : wbMatchAt name pw (c :: rest) = true
      · rw [if_pos hm]
        have hpre : name.isPrefixOf (c :: rest) = true := by
          cases name with
          | nil => simp [wbMatchAt] at hm
          | cons a ns =>
            simp only [wbMatchAt, Bool.and_eq_true] at hm
            exact hm.1.2
        rw [ih]
        exact isPrefixOf_drop name (c :: rest) hpre
      · rw [if_neg hm, ih]

lemma wbSub_tokens_go (name rep : List Char) (hne : name ≠ [])
    (hw : ∀ c ∈ name, isWordChar c = true) :
    ∀ N (t : List Char), t.length ≤ N →
      wbSubGo name rep t.length false t =
        tokensMapGo (fun w => if w = name then rep else w) t.length t := by
  intro N
  induction N with
  | zero =>
    intro t h
    have ht : t = [] := List.length_eq_zero.mp (by omega)
    subst ht
    rfl
  | succ M ih =>
    intro t h
    cases t with
    | nil => rfl
    | cons c rest =>
      have hrlen : rest.length ≤ M := by
        simp only [List.length_cons] at h; omega
      by_cases hc : isWordChar c = true
      · have hw2 : (c :: rest).takeWhile isWordChar =
            c :: rest.takeWhile isWordChar := List.takeWhile_cons_of_pos hc
        have hd2 : (c :: rest).dropWhile isWordChar =
            rest.dropWhile isWordChar := List.dropWhile_cons_of_pos hc
        have hrest : rest.takeWhile isWordChar ++ rest.dropWhile isWordChar =
            rest := List.takeWhile_append_dropWhile isWordChar rest
        have hdlen : (rest.dropWhile isWordChar).length ≤ rest.length :=
          dropWhile_length_le isWordChar rest
        have hdflag : ∀ c0 r0, rest.dropWhile isWordChar = c0 :: r0 →
            isWordChar c0 = false := dropWhile_head_false isWordChar rest
        have hih : wbSubGo name rep (rest.dropWhile isWordChar).length false
            (rest.dropWhile isWordChar) =
            tokensMapGo (fun w => if w = name then rep else w)
              (rest.dropWhile isWordChar).length (rest.dropWhile isWordChar) :=
          ih (rest.dropWhile isWordChar) (by omega)
        have hdstep : wbSubGo name rep (rest.dropWhile isWordChar).length true
            (rest.dropWhile isWordChar) =
            tokensMapGo (fun w => if w = name then rep else w)
              (rest.dropWhile isWordChar).length (rest.dropWhile isWordChar) := by
          rw [wbSubGo_flag name rep hne hw _ true false _ hdflag]
          exact hih
        have hrhs : tokensMapGo (fun w => if w = name then rep else w)
            (rest.length + 1) (c :: rest) =
            (if c :: rest.takeWhile isWordChar = name then rep
             else c :: rest.takeWhile isWordChar) ++
              tokensMapGo (fun w => if w = name then rep else w)
                (rest.dropWhile isWordChar).length (rest.dropWhile isWordChar) := by
          rw [tokensMapGo, if_pos hc, hw2, hd2,
            tokensMapGo_fuel _ rest.length (rest.dropWhile isWordChar).length _
              hdlen (le_refl _)]
        simp only [List.length_cons]
        rw [hrhs]
        by_cases hA : c :: rest.takeWhile isWordChar = name
        · have hsplit : c :: rest = name ++ rest.dropWhile isWordChar := by
            rw [← hA, List.cons_append, hrest]
          have hmA : wbMatchAt name false (c :: rest) = true := by
            cases name with
            | nil => exact absurd rfl hne
            | cons a ns =>
              have hac : a = c := by
                have := hA.symm
                rw [List.cons.injEq] at this
                exact this.1
              simp only [wbMatchAt]
              have h1 : (false != isWordChar a) = true := by
                rw [hw a (by simp)]; rfl
              have h2 : (a :: ns).isPrefixOf (c :: rest) = true := by
                have := isPrefixOf_append_self (a :: ns) (rest.dropWhile isWordChar)
                rw [← hsplit] at this
                exact this
              have h3 : (c :: rest).drop (a :: ns).length =
                  rest.dropWhile isWordChar := by
                rw [hsplit]
                exact List.drop_left (a :: ns) (rest.dropWhile isWordChar)
              rw [h1, h2, h3]
              have hlast : isWordChar ((a :: ns).getLastD a) = true :=
                hw _ (getLastD_mem ns a a)
              rcases hdd : rest.dropWhile isWordChar with _ | ⟨c0, r0⟩
              · simp only []
                rw [hlast]
                rfl
              · have hc0 : isWordChar c0 = false := hdflag c0 r0 hdd
                simp only []
                rw [hlast, hc0]
                rfl
          rw [wbSubGo, if_pos hmA]
          have hdrop : (c :: rest).drop name.length = rest.dropWhile isWordChar := by
            rw [hsplit]
            exact List.drop_left name (rest.dropWhile isWordChar)
          have hlast2 : isWordChar (name.getLastD c) = true := by
            cases name with
            | nil => exact absurd rfl hne
            | cons a ns => exact hw _ (getLastD_mem ns a c)
          rw [hdrop, hlast2, if_pos hA]
          congr 1
          rw [wbSubGo_fuel name rep rest.length (rest.dropWhile isWordChar).length
            true _ hdlen (le_refl _)]
          exact hdstep
        · have hmB : wbMatchAt name false (c :: rest) = false := by
            cases name with
            | nil => exact absurd rfl hne
            | cons a ns =>
              by_cases hpre : (a :: ns).isPrefixOf (c :: rest) = true
              · have hpw : (a :: ns).isPrefixOf ((c :: rest).takeWhile isWordChar)
                    = true := word_prefix_take (a :: ns) hw (c :: rest) hpre
                rw [hw2] at hpw
                have hsp : (a :: ns) ++
                    (c :: rest.takeWhile isWordChar).drop (a :: ns).length =
                    c :: rest.takeWhile isWordChar :=
                  isPrefixOf_drop (a :: ns) (c :: rest.takeWhile isWordChar) hpw
                rcases hs : (c :: rest.takeWhile isWordChar).drop (a :: ns).length
                    with _ | ⟨s0, s1⟩
                · rw [hs, List.append_nil] at hsp
                  exact absurd hsp.symm hA
                · have hs0w : isWordChar s0 = true := by
                    have hsub : s0 ∈ c :: rest.takeWhile isWordChar := by
                      have := List.drop_subset (a :: ns).length
                        (c :: rest.takeWhile isWordChar)
                      rw [hs] at this
                      exact this (by simp)
                    rcases List.mem_cons.mp hsub with h0 | h0
                    · rw [h0]; exact hc
                    · exact List.mem_takeWhile_imp h0
                  have hsp2 := hsp
                  rw [hs] at hsp2
                  have hdropt : (c :: rest).drop (a :: ns).length =
                      s0 :: (s1 ++ rest.dropWhile isWordChar) := by
                    have hta : c :: rest =
                        (a :: ns) ++ (s0 :: (s1 ++ rest.dropWhile isWordChar)) := by
                      rw [← List.cons_append, ← List.append_assoc, hsp2,
                        List.cons_append, hrest]
                    rw [hta, List.drop_left]
                  simp only [wbMatchAt, hdropt]
                  have hlast : isWordChar ((a :: ns).getLastD a) = true :=
                    hw _ (getLastD_mem ns a a)
                  rw [hlast, hs0w]
                  simp
              · have hpf : (a :: ns).isPrefixOf (c :: rest) = false :=
                  Bool.eq_false_iff.mpr hpre
                simp only [wbMatchAt, hpf]
                simp
          rw [wbSubGo, if_neg (by rw [hmB]; simp), if_neg hA, hc]
          have hrlen2 : rest.length =
              (rest.takeWhile isWordChar).length +
                (rest.dropWhile isWordChar).length := by
            rw [← List.length_append, hrest]
          have hkey := wbSubGo_word_copy name rep hne hw
            (rest.takeWhile isWordChar) (rest.dropWhile isWordChar)
            (fun x hx => List.mem_takeWhile_imp hx)
          rw [hrest, ← hrlen2] at hkey
          rw [hkey, wbSubGo_flag name rep hne hw _ true false _ hdflag, hih,
            List.cons_append]
      · have hcf : isWordChar c = false := by simpa using hc
        have hm : wbMatchAt name false (c :: rest) = false :=
          wbMatchAt_nonword_head name hne hw false c rest hcf
        simp only [List.length_cons]
        rw [wbSubGo, if_neg (by rw [hm]; simp), tokensMapGo, if_neg hc, hcf]
        congr 1
        exact ih rest hrlen

/-- C8 counterexample: for a name matching no hint pattern, anonymization is
the identity, the rewritten text equals the original text, and the original
name therefore still appears in the rewritten text as a whole word — it does
not vanish as the claim asserts. -/
theorem c8_anonymize_counterexample :
    "FP_".data.isPrefixOf "foo".data = false ∧
    "FN_".data.isPrefixOf "foo".data = false ∧
    "_bad".data.isSuffixOf "foo".data = false ∧
    "_ok".data.isSuffixOf "foo".data = false ∧
    "_good".data.isSuffixOf "foo".data = false ∧
    "_latent".data.isSuffixOf "foo".data = false ∧
    anonymize_function_name "foo".data 1 = "foo".data ∧
    anonymize_function_code "int foo() \x7b \x7d".data "foo".data
      (anonymize_function_name "foo".data 1) = "int foo() \x7b \x7d".data ∧
    wbOccurs "foo".data
      (anonymize_function_code "int foo() \x7b \x7d".data "foo".data
        (anonymize_function_name "foo".data 1)) = true := by
  decide

/-- C8 amended: for a nonempty all-word-character function name matching no
hint pattern, anonymization returns the name unchanged and rewriting the text
is the identity, so the new name can be re-located by word-boundary search
exactly where the original occurred — but the original name still appears as a
whole word wherever it did before, rather than vanishing.  Moreover, for any
such name and any replacement, the rewrite replaces exactly the whole-word
occurrences: it equals the map over the text's maximal word-character runs
that substitutes the replacement for runs equal to the name, so occurrences
inside longer identifiers are never rewritten. -/
theorem c8_anonymize_amended (name : List Char) (idx : Nat) (hne : name ≠ [])
    (hw : ∀ c ∈ name, isWordChar c = true) :
    (("FP_".data.isPrefixOf name = false ∧ "FN_".data.isPrefixOf name = false ∧
      "_bad".data.isSuffixOf name = false ∧ "_ok".data.isSuffixOf name = false ∧
      "_good".data.isSuffixOf name = false ∧
      "_latent".data.isSuffixOf name = false) →
      anonymize_function_name name idx = name ∧
      ∀ code,
        anonymize_function_code code name (anonymize_function_name name idx)
          = code ∧
        wbOccurs name (anonymize_function_code code name
          (anonymize_function_name name idx)) = wbOccurs name code) ∧
    ∀ rep t, wbSub name rep t =
      tokensMap (fun w => if w = name then rep else w) t := by
  constructor
  · rintro ⟨h1, h2, h3, h4, h5, h6⟩
    have hstrip : stripHints name = name := by
      simp [stripHints, h1, h2, h3, h4, h5, h6]
    have hanon : anonymize_function_name name idx = name := by
      rw [anonymize_function_name, hstrip]
      rw [if_neg (by simp [hne])]
    refine ⟨hanon, fun code => ?_⟩
    have hcode : anonymize_function_code code name
        (anonymize_function_name name idx) = code := by
      rw [hanon, anonymize_function_code, wbSub]
      exact wbSubGo_self name code.length false code
    exact ⟨hcode, by rw [hcode]⟩
  · intro rep t
    rw [wbSub, tokensMap]
    exact wbSub_tokens_go name rep hne hw t.length t (le_refl _)

theorem c8_witness :
    "bar".data ≠ [] ∧ (∀ c ∈ "bar".data, isWordChar c = true) ∧
    ("FP_".data.isPrefixOf "bar".data = false ∧
     "FN_".data.isPrefixOf "bar".data = false ∧
     "_bad".data.isSuffixOf "bar".data = false ∧
     "_ok".data.isSuffixOf "bar".data = false ∧
     "_good".data.isSuffixOf "bar".data = false ∧
     "_latent".data.isSuffixOf "bar".data = false) ∧
    anonymize_function_name "bar".data 2 = "bar".data ∧
    anonymize_function_code "int bar() \x7b bar(); \x7d".data "bar".data
      (anonymize_function_name "bar".data 2) = "int bar() \x7b bar(); \x7d".data ∧
    wbSub "bar".data "g7".data "int bar() \x7b mybar(); \x7d".data =
      tokensMap (fun w => if w = "bar".data then "g7".data else w)
        "int bar() \x7b mybar(); \x7d".data :=
  ⟨by decide, by decide, by decide,
   ((c8_anonymize_amended "bar".data 2 (by decide) (by decide)).1 (by decide)).1,
   (((c8_anonymize_amended "bar".data 2 (by decide) (by decide)).1 (by decide)).2
     "int bar() \x7b bar(); \x7d".data).1,
   (c8_anonymize_amended "bar".data 2 (by decide) (by decide)).2 "g7".data
     "int bar() \x7b mybar(); \x7d".data⟩

lemma extractGo_fuel_stable (lines : List (List Char)) :
    ∀ f1 f2 i, lines.length - i ≤ f1 → lines.length - i ≤ f2 →
      extractGo lines f1 i = extractGo lines f2 i := by
  intro f1
  induction f1 with
  | zero =>
    intro f2 i h1 h2
    rw [extractGo, extractGo_out lines f2 i (by omega)]
  | succ f ih =>
    intro f2 i h1 h2
    by_cases hi : i < lines.length
    · cases f2 with
      | zero => omega
      | succ g =>
        rw [extractGo, extractGo, if_pos hi, if_pos hi]
        by_cases hsk : skipLine (pyStrip (lines.getD i []))
        · rw [if_pos hsk, if_pos hsk]
          exact ih g (i + 1) (by omega) (by omega)
        · rw [if_neg hsk, if_neg hsk]
          rcases hfm : funcMatch (pyStrip (lines.getD i [])) with _ | nm
          · exact ih g (i + 1) (by omega) (by omega)
          · simp only []
            rcases hfe : findEnd (lines.drop i) i 0 false with _ | e
            · exact ih g (i + 1) (by omega) (by omega)
            · simp only []
              by_cases he : i < e
              · rw [if_pos he, if_pos he,
                  ih g e (by omega) (by omega)]
              · rw [if_neg he, if_neg he]
                exact ih g (i + 1) (by omega) (by omega)
    · rw [extractGo_out lines (f + 1) i (by omega),
        extractGo_out lines f2 i (by omega)]

lemma collectLines_fuel_stable (lines : List (List Char)) :
    ∀ f1 f2 j bc, lines.length - j ≤ f1 → lines.length - j ≤ f2 →
      collectLines lines f1 j bc = collectLines lines f2 j bc := by
  intro f1
  induction f1 with
  | zero =>
    intro f2 j bc h1 h2
    have hj : ¬(j < lines.length ∧ 0 < bc) := fun hc => by omega
    cases f2 with
    | zero => rfl
    | succ g => rw [collectLines, collectLines, if_neg hj]
  | succ f ih =>
    intro f2 j bc h1 h2
    by_cases hj : j < lines.length ∧ 0 < bc
    · cases f2 with
      | zero => omega
      | succ g =>
        rw [collectLines, collectLines, if_pos hj, if_pos hj,
          ih g (j + 1) _ (by omega) (by omega)]
    · cases f2 with
      | zero => rw [collectLines, collectLines, if_neg hj]
      | succ g => rw [collectLines, collectLines, if_neg hj, if_neg hj]

lemma esdGo_fuel_stable (lines : List (List Char)) :
    ∀ f1 f2 i acc, lines.length - i ≤ f1 → lines.length - i ≤ f2 →
      esdGo lines f1 i acc = esdGo lines f2 i acc := by
  intro f1
  induction f1 with
  | zero =>
    intro f2 i acc h1 h2
    have hi : ¬(i < lines.length) := by omega
    cases f2 with
    | zero => rfl
    | succ g => rw [esdGo, esdGo, if_neg hi]
  | succ f ih =>
    intro f2 i acc h1 h2
    by_cases hi : i < lines.length
    · cases f2 with
      | zero => omega
      | succ g =>
        rw [esdGo, esdGo, if_pos hi, if_pos hi]
        rcases hm : structLineMatch (pyStrip (lines.getD i [])) with _ | nm
        · exact ih g (i + 1) acc (by omega) (by omega)
        · simp only []
          exact ih g _ _ (by omega) (by omega)
    · cases f2 with
      | zero => rw [esdGo, esdGo, if_neg hi]
      | succ g => rw [esdGo, esdGo, if_neg hi, if_neg hi]
